import Mathlib

/-!
# A KD-tree with a bounded max-heap for k-nearest-neighbour search

Shallow embedding of `kdtree.c` / `kdtree.h`.

* Coordinates (`float` in the source) and distances (`double`) are elements of an
  arbitrary linearly ordered commutative ring `α`: arithmetic is exact.
* `K_DIMENSIONS` (128 in `kdtree.h`) is the parameter `K`; an embedding is a
  function from coordinate index to `α`, of which only the indices below `K` exist
  in the source array.
* Pointers to owned heap objects are replaced by the objects themselves: a
  `KDNode` pointer is a tree (`NULL` is the empty tree), a `FaceRecord` pointer
  that may be `NULL` is an `Option`.
* Arrays are lists; every array access is bounds-checked and the operation returns
  `none` as soon as an access falls outside the allocated block.
* `malloc` is an oracle passed as an argument.
* `int` values are integers without overflow; `/` and `%` on them are the C
  operators (`Int.tdiv`) where the operands can be negative, and the natural-number
  operators for depths and axis counts, which are never negative. The axis
  `depth % k` is an index into the embedding only when `0 < k`.
* The global variables `global_kd_tree` and `tree_initialized` are the fields of
  `Globals`, passed in and returned.
-/

namespace KDTreeKNN

/-! ## Data model (`kdtree.h`) -/

/-- The constant `MAX_ID_LENGTH` of `kdtree.h`. -/
def MAX_ID_LENGTH : Nat := 100

/-- The struct `FaceRecord`: the embedding, the identifier (the C string held in
`person_id`, without its terminator) and the scratch field `distance_to_query`. -/
structure FaceRecord (α : Type) where
  embedding : Nat → α
  person_id : List Char
  distance_to_query : α

/-- The struct `KDNode`, with the `left` and `right` pointers followed:
`NULL` is the null pointer. -/
inductive KDNode (α : Type) where
  | NULL : KDNode α
  | node (data : FaceRecord α) (left right : KDNode α) : KDNode α

/-- The struct `KDTree`. -/
structure KDTree (α : Type) where
  root : KDNode α
  k : Nat

/-- The struct `HeapNode`; `record` is the pointed-to `FaceRecord`. -/
structure HeapNode (α : Type) where
  record : FaceRecord α
  distance : α

/-- The struct `MaxHeap`; `nodes` is the block that the pointer `nodes` addresses,
one list element per allocated `HeapNode` slot. -/
structure MaxHeap (α : Type) where
  nodes : List (HeapNode α)
  size : Int
  capacity : Int

/-- The two file-level variables of `kdtree.c`. -/
structure Globals (α : Type) where
  global_kd_tree : KDTree α
  tree_initialized : Bool

/-- What the two `malloc` calls of `create_max_heap` give back: whether the
`MaxHeap` block was obtained, and the block of `HeapNode` slots (with whatever
they contain) when it was obtained. -/
structure HeapAlloc (α : Type) where
  heap_ok : Bool
  nodes_block : Option (List (HeapNode α))

variable {α : Type}

/-! ## Max-heap -/

/-- Read of `heap->nodes[i]`. -/
def MaxHeap.read (heap : MaxHeap α) (i : Int) : Option (HeapNode α) :=
  if 0 ≤ i then heap.nodes[i.toNat]? else none

/-- Write of `heap->nodes[i]`. -/
def MaxHeap.write (heap : MaxHeap α) (i : Int) (x : HeapNode α) : Option (MaxHeap α) :=
  if 0 ≤ i ∧ i.toNat < heap.nodes.length then
    some { heap with nodes := heap.nodes.set i.toNat x }
  else none

/-- `create_max_heap`. -/
def create_max_heap (m : HeapAlloc α) (capacity : Int) : Option (MaxHeap α) :=
  if !m.heap_ok then none
  else match m.nodes_block with
    | none => none
    | some block => some { nodes := block, size := 0, capacity := capacity }

/-- `swap_heap_nodes(&heap->nodes[i], &heap->nodes[j])`. -/
def swap_heap_nodes (heap : MaxHeap α) (i j : Int) : Option (MaxHeap α) := do
  let temp ← heap.read i
  let b ← heap.read j
  let heap1 ← heap.write i b
  heap1.write j temp

section Ordered

variable [LinearOrderedCommRing α]

/-- `max_heapify_up`, with a bound on the number of nested calls. -/
def max_heapify_up_fuel : Nat → MaxHeap α → Int → Option (MaxHeap α)
  | 0, _, _ => none
  | fuel + 1, heap, index =>
    if index = 0 then some heap
    else do
      let child ← heap.read index
      let parent ← heap.read ((index - 1).tdiv 2)
      if child.distance > parent.distance then
        let heap1 ← swap_heap_nodes heap index ((index - 1).tdiv 2)
        max_heapify_up_fuel fuel heap1 ((index - 1).tdiv 2)
      else some heap

/-- `max_heapify_up`: the index at least halves at every nested call, so
`index + 1` calls are enough. -/
def max_heapify_up (heap : MaxHeap α) (index : Int) : Option (MaxHeap α) :=
  max_heapify_up_fuel (index.toNat + 1) heap index

/-- `max_heapify_down`, with a bound on the number of nested calls. -/
def max_heapify_down_fuel : Nat → MaxHeap α → Int → Option (MaxHeap α)
  | 0, _, _ => none
  | fuel + 1, heap, index => do
    let left := 2 * index + 1
    let right := 2 * index + 2
    let largest ←
      if left < heap.size then do
        let l ← heap.read left
        let c ← heap.read index
        pure (if l.distance > c.distance then left else index)
      else pure index
    let largest ←
      if right < heap.size then do
        let r ← heap.read right
        let c ← heap.read largest
        pure (if r.distance > c.distance then right else largest)
      else pure largest
    if largest ≠ index then do
      let heap1 ← swap_heap_nodes heap index largest
      max_heapify_down_fuel fuel heap1 largest
    else pure heap

/-- `max_heapify_down`: the index grows at every nested call and stays below
`size`, so `size - index + 1` calls are enough. -/
def max_heapify_down (heap : MaxHeap α) (index : Int) : Option (MaxHeap α) :=
  max_heapify_down_fuel ((heap.size - index).toNat + 1) heap index

/-- `heap_push`. -/
def heap_push (heap : MaxHeap α) (record : FaceRecord α) (distance : α) :
    Option (MaxHeap α) :=
  if heap.size < heap.capacity then do
    let heap1 ← heap.write heap.size { record := record, distance := distance }
    let heap2 := { heap1 with size := heap1.size + 1 }
    max_heapify_up heap2 (heap2.size - 1)
  else do
    let root ← heap.read 0
    if distance < root.distance then do
      let heap1 ← heap.write 0 { record := record, distance := distance }
      max_heapify_down heap1 0
    else pure heap

/-! ## KD-tree -/

/-- `calculate_distance_sq`: the loop over the `K` coordinates. -/
def calculate_distance_sq (K : Nat) (r1 r2 : FaceRecord α) : α :=
  (List.range K).foldl
    (fun dist_sq i =>
      let diff := r1.embedding i - r2.embedding i
      dist_sq + diff * diff) 0

/-- `_kdtree_insert_recursive`; `k` is `global_kd_tree.k` and `malloc_ok` tells
whether the allocation of the new node succeeds. -/
def _kdtree_insert_recursive (k : Nat) (malloc_ok : Bool) :
    KDNode α → FaceRecord α → Nat → KDNode α
  | .NULL, record_data, _ =>
    if malloc_ok then .node record_data .NULL .NULL else .NULL
  | .node data left right, record_data, depth =>
    let axis := depth % k
    if record_data.embedding axis < data.embedding axis then
      .node data (_kdtree_insert_recursive k malloc_ok left record_data (depth + 1)) right
    else
      .node data left (_kdtree_insert_recursive k malloc_ok right record_data (depth + 1))

/-- `kdtree_insert_global`. -/
def kdtree_insert_global (g : Globals α) (malloc_ok : Bool)
    (record_to_insert : Option (FaceRecord α)) : Globals α :=
  if !g.tree_initialized then g
  else match record_to_insert with
    | none => g
    | some record =>
      { g with global_kd_tree :=
          { g.global_kd_tree with
            root := _kdtree_insert_recursive g.global_kd_tree.k malloc_ok
              g.global_kd_tree.root record 0 } }

/-- The test that guards the visit of the far child in `_kdtree_knn_recursive`:
`knn_heap->size < knn_heap->capacity || axis_dist_sq < knn_heap->nodes[0].distance`. -/
def far_side_needed (knn_heap : MaxHeap α) (axis_dist_sq : α) : Option Bool :=
  if knn_heap.size < knn_heap.capacity then some true
  else do
    let root ← knn_heap.read 0
    pure (decide (axis_dist_sq < root.distance))

/-- `_kdtree_knn_recursive`; `k` is `global_kd_tree.k`. -/
def _kdtree_knn_recursive (k K : Nat) :
    KDNode α → FaceRecord α → Nat → MaxHeap α → Option (MaxHeap α)
  | .NULL, _, _, knn_heap => some knn_heap
  | .node data left right, query_record, depth, knn_heap => do
    let axis := depth % k
    let dist_sq := calculate_distance_sq K data query_record
    let heap1 ← heap_push knn_heap data dist_sq
    let axis_dist_sq := query_record.embedding axis - data.embedding axis
    let axis_dist_sq := axis_dist_sq * axis_dist_sq
    if query_record.embedding axis < data.embedding axis then do
      -- near child: left, far child: right
      let heap2 ← _kdtree_knn_recursive k K left query_record (depth + 1) heap1
      if ← far_side_needed heap2 axis_dist_sq then
        _kdtree_knn_recursive k K right query_record (depth + 1) heap2
      else pure heap2
    else do
      -- near child: right, far child: left
      let heap2 ← _kdtree_knn_recursive k K right query_record (depth + 1) heap1
      if ← far_side_needed heap2 axis_dist_sq then
        _kdtree_knn_recursive k K left query_record (depth + 1) heap2
      else pure heap2

/-- `compare_heap_nodes`. -/
def compare_heap_nodes (nodeA nodeB : HeapNode α) : Int :=
  if nodeA.distance < nodeB.distance then -1
  else if nodeA.distance > nodeB.distance then 1
  else 0

/-- The cast `(HeapNode *)` applied by `compare_heap_nodes` to an element of the
`FaceRecord` array that `qsort` hands to it. The member `distance` of the result
is the `double` found at the offset of `HeapNode.distance` inside the
`FaceRecord`; that offset lies in the leading bytes of the record, which hold
the embedding followed by the identifier and not `distance_to_query`, so the
value read is `punned_distance` of the embedding and the identifier. The member
`record` is never read by the comparator. -/
def FaceRecord.as_heap_node (punned_distance : (Nat → α) → List Char → α)
    (r : FaceRecord α) : HeapNode α :=
  { record := r, distance := punned_distance r.embedding r.person_id }

/-- The C library function `qsort(base, num, size, compar)` on an array whose
elements are `size` bytes each: the first `num` elements are rearranged into an
order that `compar` accepts. The algorithm, and so the order of elements that
compare equal, is left open by the C standard; insertion sort stands for it. -/
def qsort {β : Type} (base : List β) (num : Nat) (compar : β → β → Int) : List β :=
  (base.take num).insertionSort (fun a b => compar a b ≤ 0) ++ base.drop num

/-- The copy loop of `kdtree_find_n_nearest_global`, `remaining` iterations from
index `i` on: `memcpy` of the `K` coordinates, `strncpy` of the identifier
(cut to `MAX_ID_LENGTH - 1` characters) and `sqrt` of the stored distance. -/
def copy_neighbors (K : Nat) (sqrt : α → α) (knn_heap : MaxHeap α) :
    Nat → Nat → List (FaceRecord α) → Option (List (FaceRecord α))
  | 0, _, found_neighbors => some found_neighbors
  | remaining + 1, i, found_neighbors => do
    let src ← knn_heap.read i
    let dst ← found_neighbors[i]?
    copy_neighbors K sqrt knn_heap remaining (i + 1)
      (found_neighbors.set i
        { embedding := fun j => if j < K then src.record.embedding j else dst.embedding j
          person_id := src.record.person_id.take (MAX_ID_LENGTH - 1)
          distance_to_query := sqrt src.distance })

/-- Test `ptr == NULL` on a node pointer. -/
def KDNode.isNULL : KDNode α → Bool
  | .NULL => true
  | .node _ _ _ => false

/-- `kdtree_find_n_nearest_global`: the returned count and the contents of the
caller's array `found_neighbors` afterwards; `none` when an access falls outside
an allocated block. `sqrt` is the square root of the C library and
`punned_distance` what the comparator reads in a `FaceRecord`. -/
def kdtree_find_n_nearest_global (K : Nat) (sqrt : α → α)
    (punned_distance : (Nat → α) → List Char → α) (g : Globals α) (m : HeapAlloc α)
    (query_record : FaceRecord α) (n_neighbors : Int)
    (found_neighbors : List (FaceRecord α)) : Option (Int × List (FaceRecord α)) :=
  if !g.tree_initialized || g.global_kd_tree.root.isNULL then some (0, found_neighbors)
  else if n_neighbors ≤ 0 then some (0, found_neighbors)
  else match create_max_heap m n_neighbors with
    | none => some (0, found_neighbors)
    | some knn_heap0 => do
      let knn_heap ← _kdtree_knn_recursive g.global_kd_tree.k K g.global_kd_tree.root
        query_record 0 knn_heap0
      let num_found := knn_heap.size
      let filled ← copy_neighbors K sqrt knn_heap num_found.toNat 0 found_neighbors
      pure (num_found,
        qsort filled num_found.toNat
          (fun a b => compare_heap_nodes (a.as_heap_node punned_distance)
            (b.as_heap_node punned_distance)))

/-- The file-level variables at program start (static storage is zeroed). -/
def initial_globals : Globals α :=
  { global_kd_tree := { root := .NULL, k := 0 }, tree_initialized := false }

/-- `kdtree_initialize_global`. -/
def kdtree_initialize_global (K : Nat) (_g : Globals α) : Globals α :=
  { global_kd_tree := { root := .NULL, k := K }, tree_initialized := true }

/-- `kdtree_destroy_global`. -/
def kdtree_destroy_global (g : Globals α) : Globals α :=
  if g.tree_initialized then
    { global_kd_tree := { g.global_kd_tree with root := .NULL }, tree_initialized := false }
  else g

/-- `EXPORT_kdtree_construir`. -/
def EXPORT_kdtree_construir (K : Nat) (g : Globals α) : Globals α :=
  kdtree_initialize_global K (if g.tree_initialized then kdtree_destroy_global g else g)

/-- `create_face_record`; `malloc_ok` tells whether the allocation succeeds. -/
def create_face_record (malloc_ok : Bool) (embedding : Nat → α) (person_id : List Char) :
    Option (FaceRecord α) :=
  if malloc_ok then
    some { embedding := embedding
           person_id := person_id.take (MAX_ID_LENGTH - 1)
           distance_to_query := 0 }
  else none

/-- `EXPORT_inserir_ponto`. -/
def EXPORT_inserir_ponto (g : Globals α) (malloc_record_ok malloc_node_ok : Bool)
    (record_from_python : FaceRecord α) : Globals α :=
  if !g.tree_initialized then g
  else match create_face_record malloc_record_ok record_from_python.embedding
      record_from_python.person_id with
    | some new_record => kdtree_insert_global g malloc_node_ok (some new_record)
    | none => g

/-- `EXPORT_buscar_n_vizinhos`. -/
def EXPORT_buscar_n_vizinhos (K : Nat) (sqrt : α → α)
    (punned_distance : (Nat → α) → List Char → α) (g : Globals α) (m : HeapAlloc α)
    (query_record : FaceRecord α) (n_neighbors : Int)
    (output_records : List (FaceRecord α)) : Option (Int × List (FaceRecord α)) :=
  if !g.tree_initialized then some (0, output_records)
  else kdtree_find_n_nearest_global K sqrt punned_distance g m query_record n_neighbors
    output_records

end Ordered

/-! ## Vocabulary of the specification -/

section Vocabulary

variable [LinearOrderedCommRing α]

/-- The records stored in a tree, node first, then left subtree, then right subtree. -/
def KDNode.records : KDNode α → List (FaceRecord α)
  | .NULL => []
  | .node data left right => data :: (left.records ++ right.records)

/-- The KD ordering of a tree whose root sits at depth `depth`: on the axis
`depth % K` the left subtree is strictly below the node and the right subtree is
at or above it, and so on in both subtrees one level down. -/
def KDNode.ordered (K : Nat) : KDNode α → Nat → Prop
  | .NULL, _ => True
  | .node data left right, depth =>
    (∀ x ∈ left.records, x.embedding (depth % K) < data.embedding (depth % K)) ∧
    (∀ x ∈ right.records, data.embedding (depth % K) ≤ x.embedding (depth % K)) ∧
    left.ordered K (depth + 1) ∧ right.ordered K (depth + 1)

/-- The subtree reached from a node by a path of child choices (`true` is the left
child, `false` the right child); `none` when the path leaves the tree. -/
def KDNode.subtree_at : KDNode α → List Bool → Option (KDNode α)
  | t, [] => some t
  | .NULL, _ :: _ => none
  | .node _ left right, b :: path => if b then left.subtree_at path else right.subtree_at path

/-- The tree with the slot at the end of a path replaced by `s`, all else kept. -/
def KDNode.graft : KDNode α → List Bool → KDNode α → KDNode α
  | _, [], s => s
  | .NULL, _ :: _, _ => .NULL
  | .node data left right, b :: path, s =>
    if b then .node data (left.graft path s) right else .node data left (right.graft path s)

/-- A path is the descent of `record` in the tree `t`, whose root sits at depth
`depth`, with axis count `k`: at every step `i` the path stands on a node, at depth
`depth + i`, and goes left exactly when the record is strictly below that node on
the axis `(depth + i) % k`. -/
def is_descent (k depth : Nat) (t : KDNode α) (record : FaceRecord α) (path : List Bool) :
    Prop :=
  ∀ i, i < path.length → ∃ data left right,
    t.subtree_at (path.take i) = some (.node data left right) ∧
    (path.getD i false = true ↔
      record.embedding ((depth + i) % k) < data.embedding ((depth + i) % k))

/-- A run of successful insertions, one `kdtree_insert_global` call per record. -/
def insert_all (g : Globals α) (records : List (FaceRecord α)) : Globals α :=
  records.foldl (fun g r => kdtree_insert_global g true (some r)) g

/-! Max-heap vocabulary. -/

/-- The max-heap order on the first `n` slots of a node array: every slot other
than the root holds a distance at most that of its parent slot `(j - 1) / 2`. -/
def heap_ordered (l : List (HeapNode α)) (n : Nat) : Prop :=
  ∀ j c p, 0 < j → j < n → l[j]? = some c → l[(j - 1) / 2]? = some p → c.distance ≤ p.distance

/-- The max-heap order with one exception allowed, between slot `i` and its
parent: the state in which `max_heapify_up` is called on `i`. -/
def up_ok (l : List (HeapNode α)) (n i : Nat) : Prop :=
  (∀ j c p, 0 < j → j < n → j ≠ i → l[j]? = some c → l[(j - 1) / 2]? = some p →
    c.distance ≤ p.distance) ∧
  (∀ j c g, 0 < j → j < n → (j - 1) / 2 = i → 0 < i → l[j]? = some c →
    l[(i - 1) / 2]? = some g → c.distance ≤ g.distance)

/-- The max-heap order with exceptions allowed between slot `i` and its
children: the state in which `max_heapify_down` is called on `i`. -/
def down_ok (l : List (HeapNode α)) (n i : Nat) : Prop :=
  (∀ j c p, 0 < j → j < n → (j - 1) / 2 ≠ i → l[j]? = some c → l[(j - 1) / 2]? = some p →
    c.distance ≤ p.distance) ∧
  (∀ j c g, 0 < j → j < n → (j - 1) / 2 = i → 0 < i → l[j]? = some c →
    l[(i - 1) / 2]? = some g → c.distance ≤ g.distance)

/-- Whether slot `a` holds a strictly larger distance than slot `b`. -/
def slot_gt (l : List (HeapNode α)) (a b : Nat) : Bool :=
  match l[a]?, l[b]? with
  | some x, some y => decide (x.distance > y.distance)
  | _, _ => false

/-- The slot that `max_heapify_down` picks among `i` and its children below `n`. -/
def largest_of (l : List (HeapNode α)) (n i : Nat) : Nat :=
  let l1 := if 2 * i + 1 < n ∧ slot_gt l (2 * i + 1) i = true then 2 * i + 1 else i
  if 2 * i + 2 < n ∧ slot_gt l (2 * i + 2) l1 = true then 2 * i + 2 else l1

/-- A heap as `create_max_heap` and `heap_push` leave it: `0 ≤ size ≤ capacity` and
`nodes` addresses a block of `capacity` slots. -/
def MaxHeap.well_formed (heap : MaxHeap α) : Prop :=
  0 ≤ heap.size ∧ heap.size ≤ heap.capacity ∧ (heap.nodes.length : Int) = heap.capacity

/-- The max-heap predicate: every non-root slot `i < size` holds a distance at most
that of its parent slot `(i - 1) / 2`. -/
def MaxHeap.is_max_heap (heap : MaxHeap α) : Prop :=
  heap_ordered heap.nodes heap.size.toNat

/-- The retained entries: the slots `0 .. size - 1`. -/
def MaxHeap.retained (heap : MaxHeap α) : List (HeapNode α) :=
  heap.nodes.take heap.size.toNat

/-- A run of `heap_push` calls, one per (record, distance) pair, in order. -/
def push_all (heap : MaxHeap α) (pushes : List (FaceRecord α × α)) : Option (MaxHeap α) :=
  pushes.foldlM (fun h p => heap_push h p.1 p.2) heap

/-- The `k` smallest values of a list of distances, by sorting all of them: the
brute-force selection the heap is compared with. -/
def k_smallest (k : Nat) (distances : List α) : List α :=
  (distances.insertionSort (· ≤ ·)).take k

/-- `M` is a selection of `k` smallest entries of `All` (or all of them when
there are fewer): `All` splits into `M` and the rest, nothing in `M` is farther
than anything in the rest, and `M` has `min k (card All)` entries. -/
def is_top_k (k : Nat) (M All : Multiset (HeapNode α)) : Prop :=
  ∃ R, M + R = All ∧ (∀ x ∈ M, ∀ y ∈ R, x.distance ≤ y.distance) ∧
    Multiset.card M = min k (Multiset.card All)

/-- The output record `o` is the copy that `kdtree_find_n_nearest_global` makes of
the heap entry `src`: the `K` coordinates of the stored record, its identifier cut
to `MAX_ID_LENGTH - 1` characters, and the square root of the stored distance. -/
def is_copy (K : Nat) (sqrt : α → α) (src : HeapNode α) (o : FaceRecord α) : Prop :=
  (∀ j, j < K → o.embedding j = src.record.embedding j) ∧
  o.person_id = src.record.person_id.take (MAX_ID_LENGTH - 1) ∧
  o.distance_to_query = sqrt src.distance

/-- The record whose coordinates all equal `c`, with an empty identifier. -/
def uniform_point (c : Int) : FaceRecord Int :=
  { embedding := fun _ => c, person_id := [], distance_to_query := 0 }

/-- The record `(1, 0, 0, ...)`, with an empty identifier. -/
def first_axis_point : FaceRecord Int :=
  { embedding := fun i => if i = 0 then 1 else 0, person_id := [], distance_to_query := 0 }

/-- An index with `K` axes right after `kdtree_initialize_global`. -/
def fresh_index (K : Nat) : Globals Int :=
  kdtree_initialize_global K initial_globals

/-- A full heap with one slot, holding the point `(5, 5, ...)` at distance 5. -/
def one_slot_heap : MaxHeap Int :=
  { nodes := [{ record := uniform_point 5, distance := 5 }], size := 1, capacity := 1 }

/-- Both allocations of `create_max_heap` succeed and give a block of two slots. -/
def two_slot_alloc : HeapAlloc Int :=
  { heap_ok := true
    nodes_block := some [{ record := uniform_point 0, distance := 0 },
      { record := uniform_point 0, distance := 0 }] }

/-- The index with 128 axes holding `(1, 1, ...)` and `(2, 2, ...)`, inserted in
that order. -/
def two_point_index : Globals Int :=
  insert_all (fresh_index 128) [uniform_point 1, uniform_point 2]

/-- Both allocations of `create_max_heap` succeed and give a block of one slot. -/
def one_slot_alloc : HeapAlloc Int :=
  { heap_ok := true, nodes_block := some [{ record := uniform_point 0, distance := 0 }] }

/-- The record with all coordinates `c` and identifier `id`, over the rationals. -/
def scenario_point (c : ℚ) (id : List Char) : FaceRecord ℚ :=
  { embedding := fun _ => c, person_id := id, distance_to_query := 0 }

/-- The point `P0 = (0, 0, 0)`, with the identifier `BBBB`. -/
def scenario_P0 : FaceRecord ℚ :=
  scenario_point 0 ['B', 'B', 'B', 'B']

/-- The point `P1 = (1, 1, 1)`, with the identifier `AAAA`. -/
def scenario_P1 : FaceRecord ℚ :=
  scenario_point 1 ['A', 'A', 'A', 'A']

/-- The point `P2 = (2, 2, 2)`, with the identifier `CCCC`. -/
def scenario_P2 : FaceRecord ℚ :=
  scenario_point 2 ['C', 'C', 'C', 'C']

/-- The query `Q = (0.1, 0.1, 0.1)`. -/
def scenario_query : FaceRecord ℚ :=
  scenario_point (1 / 10) []

/-- The index with 3 axes holding `P0`, `P1` and `P2`, inserted in that order. -/
def scenario_index : Globals ℚ :=
  insert_all (kdtree_initialize_global 3 initial_globals)
    [scenario_P0, scenario_P1, scenario_P2]

/-- Both allocations of `create_max_heap` succeed and give a block of two slots,
over the rationals. -/
def scenario_alloc : HeapAlloc ℚ :=
  { heap_ok := true
    nodes_block := some [{ record := scenario_point 0 [], distance := 0 },
      { record := scenario_point 0 [], distance := 0 }] }

end Vocabulary

/-! ## Properties of the max-heap -/

section HeapProperties

variable [LinearOrderedCommRing α]

omit [LinearOrderedCommRing α] in
theorem read_natCast (heap : MaxHeap α) (i : Nat) : heap.read (i : Int) = heap.nodes[i]? := by
  simp [MaxHeap.read]

omit [LinearOrderedCommRing α] in
theorem write_natCast (heap : MaxHeap α) (i : Nat) (x : HeapNode α) (h : i < heap.nodes.length) :
    heap.write (i : Int) x = some { heap with nodes := heap.nodes.set i x } := by
  simp [MaxHeap.write, h]

/-- Overwriting slot `i`, which held `a`, with `b` trades `a` for `b` in the multiset. -/
theorem set_cons_perm {β : Type} (l : List β) (i : Nat) (a b : β) (h : l[i]? = some a) :
    (a :: l.set i b).Perm (b :: l) := by
  induction l generalizing i with
  | nil => simp at h
  | cons x xs ih =>
    cases i with
    | zero =>
      simp at h
      subst h
      simpa using List.Perm.swap b x xs
    | succ i =>
      simp at h
      simp only [List.set_cons_succ]
      exact (List.Perm.swap x a _).trans (((ih i h).cons x).trans (List.Perm.swap b x xs))

omit [LinearOrderedCommRing α] in
theorem swap_natCast (heap : MaxHeap α) (i j : Nat) (a b : HeapNode α)
    (ha : heap.nodes[i]? = some a) (hb : heap.nodes[j]? = some b) :
    swap_heap_nodes heap (i : Int) (j : Int)
      = some { heap with nodes := (heap.nodes.set i b).set j a } := by
  have hi : i < heap.nodes.length := by
    by_contra h; simp [List.getElem?_eq_none (not_lt.mp h)] at ha
  have hj : j < heap.nodes.length := by
    by_contra h; simp [List.getElem?_eq_none (not_lt.mp h)] at hb
  simp [swap_heap_nodes, read_natCast, ha, hb, write_natCast, hi, hj]

theorem tdiv_parent (i : Nat) (h : 0 < i) : ((i : Int) - 1).tdiv 2 = ((i - 1) / 2 : Nat) := by
  have h1 : ((i : Int) - 1) = ((i - 1 : Nat) : Int) := by omega
  rw [h1, Int.tdiv_eq_ediv (by omega) (by omega)]
  simp

/-- The content of every slot after two slots have been exchanged. -/
theorem swap_getElem? {β : Type} (l : List β) (i j k : Nat) (a b : β) (hij : i ≠ j)
    (ha : l[i]? = some a) (hb : l[j]? = some b) :
    ((l.set i b).set j a)[k]? = if k = j then some a else if k = i then some b else l[k]? := by
  have hi : i < l.length := by
    by_contra h; simp [List.getElem?_eq_none (not_lt.mp h)] at ha
  have hj : j < l.length := by
    by_contra h; simp [List.getElem?_eq_none (not_lt.mp h)] at hb
  simp only [List.getElem?_set, List.length_set]
  by_cases h1 : k = j
  · subst h1; simp [hj]
  · by_cases h2 : k = i
    · subst h2; simp [hi, h1, Ne.symm h1]
    · simp [h1, h2, Ne.symm h1, Ne.symm h2]

/-- Exchanging two of the first `n` slots permutes the first `n` slots. -/
theorem swap_take_perm {β : Type} (l : List β) (n i j : Nat) (a b : β) (hij : i ≠ j)
    (hi : i < n) (hj : j < n) (ha : l[i]? = some a) (hb : l[j]? = some b) :
    (((l.set i b).set j a).take n).Perm (l.take n) := by
  rw [List.set_take, List.set_take]
  have ha' : (l.take n)[i]? = some a := by rw [List.getElem?_take_of_lt hi]; exact ha
  have hb' : (l.take n)[j]? = some b := by rw [List.getElem?_take_of_lt hj]; exact hb
  have h1 : (((l.take n).set i b))[j]? = some b := by
    rw [List.getElem?_set]; simp [hij, hb']
  have p1 := set_cons_perm ((l.take n).set i b) j b a h1
  have p2 := set_cons_perm (l.take n) i a b ha'
  have p3 : (b :: ((l.take n).set i b).set j a).Perm (b :: l.take n) :=
    p1.trans p2
  exact p3.cons_inv

/-- After the exchange made by `max_heapify_up` at `i`, the only possible exception
to the heap order is between the parent slot and its own parent. -/
theorem up_ok_swap (l : List (HeapNode α)) (n i : Nat) (child parent : HeapNode α)
    (hipos : 0 < i) (hin : i < n) (hchild : l[i]? = some child)
    (hparent : l[(i - 1) / 2]? = some parent) (hgt : child.distance > parent.distance)
    (hok : up_ok l n i) :
    up_ok ((l.set i parent).set ((i - 1) / 2) child) n ((i - 1) / 2) := by
  have hne : i ≠ (i - 1) / 2 := by omega
  have hget := fun k => swap_getElem? l i ((i - 1) / 2) k child parent hne hchild hparent
  constructor
  · intro j c q hj0 hjn hjp hc hq
    rw [hget] at hc hq
    rw [if_neg hjp] at hc
    by_cases hji : j = i
    · subst hji
      simp only [if_true] at hc hq
      cases hc; cases hq
      exact le_of_lt hgt
    · rw [if_neg hji] at hc
      by_cases hpp : (j - 1) / 2 = (i - 1) / 2
      · rw [if_pos hpp] at hq
        cases hq
        exact le_of_lt (lt_of_le_of_lt (hok.1 j c parent hj0 hjn hji hc (by rw [hpp]; exact hparent)) hgt)
      · rw [if_neg hpp] at hq
        by_cases hpi : (j - 1) / 2 = i
        · rw [if_pos hpi] at hq
          cases hq
          exact hok.2 j c _ hj0 hjn hpi hipos hc hparent
        · rw [if_neg hpi] at hq
          exact hok.1 j c q hj0 hjn hji hc hq
  · intro j c g hj0 hjn hjp hp0 hc hg
    rw [hget] at hc hg
    have h1 : (((i - 1) / 2 - 1) / 2) ≠ (i - 1) / 2 := by omega
    have h2 : (((i - 1) / 2 - 1) / 2) ≠ i := by omega
    rw [if_neg h1, if_neg h2] at hg
    have hjne : j ≠ (i - 1) / 2 := by omega
    rw [if_neg hjne] at hc
    have hpg : parent.distance ≤ g.distance :=
      hok.1 ((i - 1) / 2) parent g hp0 (by omega) (by omega) hparent hg
    by_cases hji : j = i
    · rw [if_pos hji] at hc
      cases hc
      exact hpg
    · rw [if_neg hji] at hc
      exact le_trans (hok.1 j c parent hj0 hjn hji hc (by rw [hjp]; exact hparent)) hpg

/-- One call of `max_heapify_up` at a slot other than the root. -/
theorem up_step (fuel : Nat) (heap : MaxHeap α) (i : Nat) (hi : 0 < i) :
    max_heapify_up_fuel (fuel + 1) heap (i : Int)
      = (heap.nodes[i]?).bind fun child => (heap.nodes[(i - 1) / 2]?).bind fun parent =>
          if child.distance > parent.distance then
            (swap_heap_nodes heap (i : Int) (((i - 1) / 2 : Nat) : Int)).bind fun heap1 =>
              max_heapify_up_fuel fuel heap1 (((i - 1) / 2 : Nat) : Int)
          else some heap := by
  have hi0 : (i : Int) ≠ 0 := by omega
  simp only [max_heapify_up_fuel, tdiv_parent i hi, read_natCast, hi0, if_false]
  rfl

/-- `max_heapify_up` returns, permutes the first `n` slots and restores the heap
order when the only exception was at slot `i`. -/
theorem sift_up_spec (fuel : Nat) : ∀ (heap : MaxHeap α) (i n : Nat),
    heap.size = n → n ≤ heap.nodes.length → i < n → i < fuel → up_ok heap.nodes n i →
    ∃ l', max_heapify_up_fuel fuel heap i = some { heap with nodes := l' } ∧
      l'.length = heap.nodes.length ∧ (l'.take n).Perm (heap.nodes.take n) ∧
      heap_ordered l' n := by
  induction fuel with
  | zero => intro heap i n _ _ _ hf; omega
  | succ fuel ih =>
    intro heap i n hsize hlen hin hfuel hok
    by_cases hi0 : i = 0
    · subst hi0
      refine ⟨heap.nodes, by simp [max_heapify_up_fuel], rfl, List.Perm.refl _, ?_⟩
      intro j c p hj0 hjn hc hp
      exact hok.1 j c p hj0 hjn (by omega) hc hp
    · have hipos : 0 < i := Nat.pos_of_ne_zero hi0
      have hilen : i < heap.nodes.length := by omega
      have hplt : (i - 1) / 2 < i := by omega
      have hplen : (i - 1) / 2 < heap.nodes.length := by omega
      obtain ⟨child, hchild⟩ : ∃ c, heap.nodes[i]? = some c :=
        ⟨_, List.getElem?_eq_getElem hilen⟩
      obtain ⟨parent, hparent⟩ : ∃ c, heap.nodes[(i - 1) / 2]? = some c :=
        ⟨_, List.getElem?_eq_getElem hplen⟩
      have hi0' : (i : Int) ≠ 0 := by omega
      by_cases hgt : child.distance > parent.distance
      · have hsw := swap_natCast heap i ((i - 1) / 2) child parent hchild hparent
        obtain ⟨l', h1, h2, h3, h4⟩ := ih
          { heap with nodes := (heap.nodes.set i parent).set ((i - 1) / 2) child }
          ((i - 1) / 2) n hsize (by simpa using hlen) (by omega) (by omega)
          (up_ok_swap heap.nodes n i child parent hipos hin hchild hparent hgt hok)
        refine ⟨l', ?_, by simpa using h2, ?_, h4⟩
        · rw [up_step fuel heap i hipos, hchild, hparent]
          simp only [Option.some_bind, hgt, if_true, hsw]
          exact h1
        · exact h3.trans (swap_take_perm heap.nodes n i ((i - 1) / 2) child parent
            (by omega) hin (by omega) hchild hparent)
      · refine ⟨heap.nodes, ?_, rfl, List.Perm.refl _, ?_⟩
        · rw [up_step fuel heap i hipos, hchild, hparent]
          simp only [Option.some_bind, hgt, if_false]
        · intro j c p hj0 hjn hc hp
          by_cases hji : j = i
          · subst hji
            rw [hchild] at hc; rw [hparent] at hp
            cases hc; cases hp
            exact not_lt.mp hgt
          · exact hok.1 j c p hj0 hjn hji hc hp

omit [LinearOrderedCommRing α] in
theorem read_left (heap : MaxHeap α) (i : Nat) :
    heap.read (2 * (i : Int) + 1) = heap.nodes[2 * i + 1]? := by
  have : (2 * (i : Int) + 1) = ((2 * i + 1 : Nat) : Int) := by push_cast; ring
  rw [this, read_natCast]

omit [LinearOrderedCommRing α] in
theorem read_right (heap : MaxHeap α) (i : Nat) :
    heap.read (2 * (i : Int) + 2) = heap.nodes[2 * i + 2]? := by
  have : (2 * (i : Int) + 2) = ((2 * i + 2 : Nat) : Int) := by push_cast; ring
  rw [this, read_natCast]

/-- One call of `max_heapify_down` at a slot below `size`. -/
theorem down_step (fuel : Nat) (heap : MaxHeap α) (i n : Nat) (hsize : heap.size = n)
    (hlen : n ≤ heap.nodes.length) (hin : i < n) :
    max_heapify_down_fuel (fuel + 1) heap (i : Int)
      = if largest_of heap.nodes n i ≠ i then
          (swap_heap_nodes heap (i : Int) (largest_of heap.nodes n i : Int)).bind fun heap1 =>
            max_heapify_down_fuel fuel heap1 (largest_of heap.nodes n i : Int)
        else some heap := by
  obtain ⟨c, hc⟩ : ∃ c, heap.nodes[i]? = some c := ⟨_, List.getElem?_eq_getElem (by omega)⟩
  have hL : (2 * (i : Int) + 1 < heap.size) ↔ 2 * i + 1 < n := by rw [hsize]; omega
  have hR : (2 * (i : Int) + 2 < heap.size) ↔ 2 * i + 2 < n := by rw [hsize]; omega
  have eL : (2 * (i : Int) + 1) = ((2 * i + 1 : Nat) : Int) := by push_cast; ring
  have eR : (2 * (i : Int) + 2) = ((2 * i + 2 : Nat) : Int) := by push_cast; ring
  rw [max_heapify_down_fuel]
  simp only [hL, hR, read_left, read_natCast, hc]
  have nL : (2 * (i : Int) + 1 ≠ i) := by omega
  have nR : (2 * (i : Int) + 2 ≠ i) := by omega
  by_cases h1 : 2 * i + 1 < n
  · obtain ⟨a, ha⟩ : ∃ a, heap.nodes[2 * i + 1]? = some a :=
      ⟨_, List.getElem?_eq_getElem (by omega)⟩
    by_cases h2 : 2 * i + 2 < n
    · obtain ⟨b, hb⟩ : ∃ b, heap.nodes[2 * i + 2]? = some b :=
        ⟨_, List.getElem?_eq_getElem (by omega)⟩
      by_cases g1 : a.distance > c.distance
      · by_cases g2 : b.distance > a.distance
        · have hl : largest_of heap.nodes n i = 2 * i + 2 := by
            simp [largest_of, slot_gt, h1, h2, ha, hb, hc, g1, g2]
          simp only [h1, h2, ha, hb, g1, g2, if_true, if_false, Option.some_bind,
            Option.bind_eq_bind, Option.pure_def, read_right, read_left]
          rw [hl, ← eR, if_pos nR, if_pos (by omega)]
        · have hl : largest_of heap.nodes n i = 2 * i + 1 := by
            simp [largest_of, slot_gt, h1, h2, ha, hb, hc, g1, g2]
          simp only [h1, h2, ha, hb, g1, g2, if_true, if_false, Option.some_bind,
            Option.bind_eq_bind, Option.pure_def, read_right, read_left]
          rw [hl, ← eL, if_pos nL, if_pos (by omega)]
      · by_cases g2 : b.distance > c.distance
        · have hl : largest_of heap.nodes n i = 2 * i + 2 := by
            simp [largest_of, slot_gt, h1, h2, ha, hb, hc, g1, g2]
          simp only [h1, h2, ha, hb, hc, g1, g2, if_true, if_false, Option.some_bind,
            Option.bind_eq_bind, Option.pure_def, read_right, read_left, read_natCast]
          rw [hl, ← eR, if_pos nR, if_pos (by omega)]
        · have hl : largest_of heap.nodes n i = i := by
            simp [largest_of, slot_gt, h1, h2, ha, hb, hc, g1, g2]
          simp only [h1, h2, ha, hb, hc, g1, g2, if_true, if_false, Option.some_bind,
            Option.bind_eq_bind, Option.pure_def, read_right, read_left, read_natCast]
          rw [hl]
          simp
    · by_cases g1 : a.distance > c.distance
      · have hl : largest_of heap.nodes n i = 2 * i + 1 := by
          simp [largest_of, slot_gt, h1, h2, ha, hc, g1]
        simp only [h1, h2, ha, hc, g1, if_true, if_false, Option.some_bind,
          Option.bind_eq_bind, Option.pure_def, read_right, read_left, read_natCast]
        rw [hl, ← eL, if_pos nL, if_pos (by omega)]
      · have hl : largest_of heap.nodes n i = i := by
          simp [largest_of, slot_gt, h1, h2, ha, hc, g1]
        simp only [h1, h2, ha, hc, g1, if_true, if_false, Option.some_bind,
          Option.bind_eq_bind, Option.pure_def, read_right, read_left, read_natCast]
        rw [hl]
        simp
  · have h2 : ¬ 2 * i + 2 < n := by omega
    have hl : largest_of heap.nodes n i = i := by
      simp [largest_of, slot_gt, h1, h2]
    simp only [h1, h2, hc, if_true, if_false, Option.some_bind,
      Option.bind_eq_bind, Option.pure_def, read_right, read_left, read_natCast]
    rw [hl]
    simp

/-- The slot picked by `max_heapify_down` is `i` or one of its children below `n`,
and holds the largest distance of the three. -/
theorem largest_of_spec (l : List (HeapNode α)) (n i : Nat) (c : HeapNode α)
    (hlen : n ≤ l.length) (hin : i < n) (hc : l[i]? = some c) :
    ∃ x, l[largest_of l n i]? = some x ∧ largest_of l n i < n ∧
      (largest_of l n i ≠ i →
        0 < largest_of l n i ∧ (largest_of l n i - 1) / 2 = i ∧ c.distance < x.distance) ∧
      c.distance ≤ x.distance ∧
      ∀ j y, 0 < j → j < n → (j - 1) / 2 = i → l[j]? = some y → y.distance ≤ x.distance := by
  have key : ∀ j, 0 < j → (j - 1) / 2 = i → j = 2 * i + 1 ∨ j = 2 * i + 2 := by
    intro j h1 h2; omega
  by_cases h1 : 2 * i + 1 < n
  · obtain ⟨a, ha⟩ : ∃ a, l[2 * i + 1]? = some a := ⟨_, List.getElem?_eq_getElem (by omega)⟩
    by_cases h2 : 2 * i + 2 < n
    · obtain ⟨b, hb⟩ : ∃ b, l[2 * i + 2]? = some b := ⟨_, List.getElem?_eq_getElem (by omega)⟩
      by_cases g1 : a.distance > c.distance
      · by_cases g2 : b.distance > a.distance
        · have hl : largest_of l n i = 2 * i + 2 := by
            simp [largest_of, slot_gt, h1, h2, ha, hb, hc, g1, g2]
          rw [hl]
          refine ⟨b, hb, h2, fun _ => ⟨by omega, by omega, lt_trans g1 g2⟩,
            le_of_lt (lt_trans g1 g2), ?_⟩
          intro j y hj0 hjn hjp hy
          rcases key j hj0 hjp with h | h
          · rw [h, ha] at hy; cases hy; exact le_of_lt g2
          · rw [h, hb] at hy; cases hy; exact le_refl _
        · have hl : largest_of l n i = 2 * i + 1 := by
            simp [largest_of, slot_gt, h1, h2, ha, hb, hc, g1, g2]
          rw [hl]
          refine ⟨a, ha, h1, fun _ => ⟨by omega, by omega, g1⟩, le_of_lt g1, ?_⟩
          intro j y hj0 hjn hjp hy
          rcases key j hj0 hjp with h | h
          · rw [h, ha] at hy; cases hy; exact le_refl _
          · rw [h, hb] at hy; cases hy; exact not_lt.mp g2
      · by_cases g2 : b.distance > c.distance
        · have hl : largest_of l n i = 2 * i + 2 := by
            simp [largest_of, slot_gt, h1, h2, ha, hb, hc, g1, g2]
          rw [hl]
          refine ⟨b, hb, h2, fun _ => ⟨by omega, by omega, g2⟩, le_of_lt g2, ?_⟩
          intro j y hj0 hjn hjp hy
          rcases key j hj0 hjp with h | h
          · rw [h, ha] at hy; cases hy; exact le_trans (not_lt.mp g1) (le_of_lt g2)
          · rw [h, hb] at hy; cases hy; exact le_refl _
        · have hl : largest_of l n i = i := by
            simp [largest_of, slot_gt, h1, h2, ha, hb, hc, g1, g2]
          rw [hl]
          refine ⟨c, hc, hin, fun h => absurd rfl h, le_refl _, ?_⟩
          intro j y hj0 hjn hjp hy
          rcases key j hj0 hjp with h | h
          · rw [h, ha] at hy; cases hy; exact not_lt.mp g1
          · rw [h, hb] at hy; cases hy; exact not_lt.mp g2
    · by_cases g1 : a.distance > c.distance
      · have hl : largest_of l n i = 2 * i + 1 := by
          simp [largest_of, slot_gt, h1, h2, ha, hc, g1]
        rw [hl]
        refine ⟨a, ha, h1, fun _ => ⟨by omega, by omega, g1⟩, le_of_lt g1, ?_⟩
        intro j y hj0 hjn hjp hy
        rcases key j hj0 hjp with h | h
        · rw [h, ha] at hy; cases hy; exact le_refl _
        · omega
      · have hl : largest_of l n i = i := by
          simp [largest_of, slot_gt, h1, h2, ha, hc, g1]
        rw [hl]
        refine ⟨c, hc, hin, fun h => absurd rfl h, le_refl _, ?_⟩
        intro j y hj0 hjn hjp hy
        rcases key j hj0 hjp with h | h
        · rw [h, ha] at hy; cases hy; exact not_lt.mp g1
        · omega
  · have h2 : ¬ 2 * i + 2 < n := by omega
    have hl : largest_of l n i = i := by
      simp [largest_of, slot_gt, h1, h2]
    rw [hl]
    refine ⟨c, hc, hin, fun h => absurd rfl h, le_refl _, ?_⟩
    intro j y hj0 hjn hjp hy
    rcases key j hj0 hjp with h | h <;> omega

/-- After the exchange made by `max_heapify_down` at `i`, the only possible
exceptions to the heap order are between the picked child and its own children. -/
theorem down_ok_swap (l : List (HeapNode α)) (n i m : Nat) (c x : HeapNode α)
    (hmn : m < n) (hm0 : 0 < m) (hmp : (m - 1) / 2 = i)
    (hc : l[i]? = some c) (hx : l[m]? = some x) (hcx : c.distance < x.distance)
    (hmax : ∀ j y, 0 < j → j < n → (j - 1) / 2 = i → l[j]? = some y → y.distance ≤ x.distance)
    (hok : down_ok l n i) :
    down_ok ((l.set i x).set m c) n m := by
  have hne : i ≠ m := by omega
  have hget := fun k => swap_getElem? l i m k c x hne hc hx
  constructor
  · intro j cj p hj0 hjn hjp hcj hp
    rw [hget] at hcj hp
    rw [if_neg hjp] at hp
    by_cases hjm : j = m
    · subst hjm
      rw [if_pos rfl] at hcj
      rw [if_pos hmp] at hp
      cases hcj; cases hp
      exact le_of_lt hcx
    · rw [if_neg hjm] at hcj
      by_cases hji : j = i
      · subst hji
        rw [if_pos rfl] at hcj
        cases hcj
        have h1 : (j - 1) / 2 ≠ j := by omega
        rw [if_neg h1] at hp
        exact hok.2 m _ p hm0 hmn hmp hj0 hx hp
      · rw [if_neg hji] at hcj
        by_cases hpi : (j - 1) / 2 = i
        · rw [if_pos hpi] at hp
          cases hp
          exact hmax j cj hj0 hjn hpi hcj
        · rw [if_neg hpi] at hp
          exact hok.1 j cj p hj0 hjn hpi hcj hp
  · intro j cj g hj0 hjn hjp _ hcj hg
    rw [hget] at hcj hg
    have h1 : (m - 1) / 2 ≠ m := by omega
    rw [if_neg h1, if_pos hmp] at hg
    cases hg
    have h2 : j ≠ m := by omega
    have h3 : j ≠ i := by omega
    rw [if_neg h2, if_neg h3] at hcj
    exact hok.1 j cj x hj0 hjn (by omega) hcj (by rw [hjp]; exact hx)

/-- `max_heapify_down` returns, permutes the first `n` slots and restores the heap
order when the only exceptions were between slot `i` and its children. -/
theorem sift_down_spec (fuel : Nat) : ∀ (heap : MaxHeap α) (i n : Nat),
    heap.size = n → n ≤ heap.nodes.length → i < n → n < fuel + i → down_ok heap.nodes n i →
    ∃ l', max_heapify_down_fuel fuel heap i = some { heap with nodes := l' } ∧
      l'.length = heap.nodes.length ∧ (l'.take n).Perm (heap.nodes.take n) ∧
      heap_ordered l' n := by
  induction fuel with
  | zero => intro heap i n _ _ _ hf; omega
  | succ fuel ih =>
    intro heap i n hsize hlen hin hfuel hok
    obtain ⟨c, hc⟩ : ∃ c, heap.nodes[i]? = some c := ⟨_, List.getElem?_eq_getElem (by omega)⟩
    obtain ⟨x, hx, hmn, hne, hcx, hmax⟩ := largest_of_spec heap.nodes n i c hlen hin hc
    rw [down_step fuel heap i n hsize hlen hin]
    by_cases hl : largest_of heap.nodes n i = i
    · refine ⟨heap.nodes, by simp [hl], rfl, List.Perm.refl _, ?_⟩
      rw [hl, hc] at hx
      cases hx
      intro j cj p hj0 hjn hcj hp
      by_cases hpi : (j - 1) / 2 = i
      · rw [hpi, hc] at hp
        cases hp
        exact hmax j cj hj0 hjn hpi hcj
      · exact hok.1 j cj p hj0 hjn hpi hcj hp
    · obtain ⟨hm0, hmp, hlt⟩ := hne hl
      have hsw := swap_natCast heap i (largest_of heap.nodes n i) c x hc hx
      obtain ⟨l', h1, h2, h3, h4⟩ := ih
        { heap with nodes := (heap.nodes.set i x).set (largest_of heap.nodes n i) c }
        (largest_of heap.nodes n i) n hsize (by simpa using hlen) hmn (by omega)
        (down_ok_swap heap.nodes n i _ c x hmn hm0 hmp hc hx hlt hmax hok)
      refine ⟨l', ?_, by simpa using h2, ?_, h4⟩
      · rw [if_pos hl, hsw]
        exact h1
      · exact h3.trans (swap_take_perm heap.nodes n i _ c x (by omega) hin hmn hc hx)

/-- In heap order the root holds the largest distance of the first `n` slots. -/
theorem heap_ordered_root_max (l : List (HeapNode α)) (n : Nat) (hlen : n ≤ l.length)
    (h : heap_ordered l n) (root : HeapNode α) (hroot : l[0]? = some root) :
    ∀ j c, j < n → l[j]? = some c → c.distance ≤ root.distance := by
  intro j
  induction j using Nat.strong_induction_on with
  | _ j ih =>
    intro c hjn hc
    by_cases hj0 : j = 0
    · subst hj0
      rw [hroot] at hc; cases hc; exact le_refl _
    · have hp : (j - 1) / 2 < j := by omega
      obtain ⟨p, hpv⟩ : ∃ p, l[(j - 1) / 2]? = some p :=
        ⟨_, List.getElem?_eq_getElem (by omega)⟩
      exact le_trans (h j c p (by omega) hjn hc hpv) (ih _ hp p (by omega) hpv)

theorem retained_root_max (heap : MaxHeap α) (hwf : heap.well_formed) (hmh : heap.is_max_heap)
    (root : HeapNode α) (hroot : heap.nodes[0]? = some root) :
    ∀ x ∈ heap.retained, x.distance ≤ root.distance := by
  obtain ⟨h0, h1, h2⟩ := hwf
  intro x hx
  unfold MaxHeap.retained at hx
  obtain ⟨j, hj, rfl⟩ := List.getElem_of_mem hx
  have hjn : j < heap.size.toNat := by
    have := hj; simp only [List.length_take] at this; omega
  refine heap_ordered_root_max heap.nodes heap.size.toNat (by omega) hmh root hroot j _ hjn ?_
  rw [List.getElem_take]
  exact List.getElem?_eq_getElem _

theorem set_take_succ {β : Type} (l : List β) (n : Nat) (x : β) (h : n < l.length) :
    (l.set n x).take (n + 1) = l.take n ++ [x] := by
  induction l generalizing n with
  | nil => simp at h
  | cons a as ih =>
    cases n with
    | zero => simp
    | succ n =>
      simp only [List.set_cons_succ, List.take_succ_cons, List.cons_append]
      rw [ih n (by simpa using h)]

/-- What one `heap_push` does to a well-formed max-heap with room for at least
one entry. -/
theorem heap_push_spec (heap : MaxHeap α) (record : FaceRecord α) (distance : α)
    (hwf : heap.well_formed) (hcap : 1 ≤ heap.capacity) (hmh : heap.is_max_heap) :
    ∃ heap', heap_push heap record distance = some heap' ∧ heap'.well_formed ∧
      heap'.capacity = heap.capacity ∧ heap'.is_max_heap ∧
      ((heap.size < heap.capacity ∧ heap'.size = heap.size + 1 ∧
          heap'.retained.Perm (⟨record, distance⟩ :: heap.retained)) ∨
        (heap.size = heap.capacity ∧ ∃ root, heap.nodes[0]? = some root ∧
          distance < root.distance ∧ heap'.size = heap.size ∧
          (root :: heap'.retained).Perm (⟨record, distance⟩ :: heap.retained)) ∨
        (heap.size = heap.capacity ∧ ∃ root, heap.nodes[0]? = some root ∧
          root.distance ≤ distance ∧ heap' = heap)) := by
  obtain ⟨h0, h1, h2⟩ := hwf
  obtain ⟨n, hn⟩ : ∃ n : Nat, heap.size = n := ⟨heap.size.toNat, by omega⟩
  have hmh' : heap_ordered heap.nodes n := by
    have : heap.size.toNat = n := by omega
    simpa [MaxHeap.is_max_heap, this] using hmh
  by_cases hlt : heap.size < heap.capacity
  · have hnlen : n < heap.nodes.length := by omega
    have hw := write_natCast heap n ⟨record, distance⟩ hnlen
    have hok : up_ok (heap.nodes.set n ⟨record, distance⟩) (n + 1) n := by
      constructor
      · intro j c p hj0 hjn hjne hc hp
        rw [List.getElem?_set_ne (by omega)] at hc hp
        exact hmh' j c p hj0 (by omega) hc hp
      · intro j c g hj0 hjn hjp _ _ _
        omega
    obtain ⟨l', e1, e2, e3, e4⟩ := sift_up_spec (n + 1)
      { nodes := heap.nodes.set n ⟨record, distance⟩, size := ((n + 1 : Nat) : Int),
        capacity := heap.capacity } n (n + 1) rfl (by simp; omega) (by omega) (by omega) hok
    refine ⟨{ nodes := l', size := ((n + 1 : Nat) : Int), capacity := heap.capacity },
      ?_, ?_, ?_, ?_, Or.inl ⟨hlt, ?_, ?_⟩⟩
    · unfold heap_push
      rw [if_pos hlt, hn, hw]
      simp only [Option.bind_eq_bind, Option.some_bind, max_heapify_up, hn]
      have e5 : ((n : Int) + 1 - 1) = n := by omega
      rw [e5]
      have e6 : ((n : Int)).toNat + 1 = n + 1 := by simp
      rw [e6]
      have e7 : ((n : Int) + 1) = ((n + 1 : Nat) : Int) := by simp
      rw [e7]
      exact e1
    · refine ⟨by simp; omega, by simp; omega, ?_⟩
      show ((l'.length : Nat) : Int) = heap.capacity
      rw [e2]; simpa using h2
    · rfl
    · simpa [MaxHeap.is_max_heap] using e4
    · simp [hn]
    · simp only [MaxHeap.retained, Int.toNat_ofNat]
      refine e3.trans ?_
      have : heap.size.toNat = n := by omega
      rw [this]
      simp only [set_take_succ heap.nodes n _ hnlen]
      exact List.perm_append_singleton _ _
  · have hfull : heap.size = heap.capacity := by omega
    have hn1 : 1 ≤ n := by omega
    obtain ⟨root, hroot⟩ : ∃ r, heap.nodes[0]? = some r :=
      ⟨_, List.getElem?_eq_getElem (by omega)⟩
    have hr : heap.read 0 = some root := by
      have := read_natCast heap 0
      simpa [hroot] using this
    by_cases hd : distance < root.distance
    · have hw : heap.write 0 ⟨record, distance⟩
          = some { heap with nodes := heap.nodes.set 0 ⟨record, distance⟩ } := by
        have := write_natCast heap 0 ⟨record, distance⟩ (by omega)
        simpa using this
      have hok : down_ok (heap.nodes.set 0 ⟨record, distance⟩) n 0 := by
        constructor
        · intro j c p hj0 hjn hjp hc hp
          rw [List.getElem?_set_ne (by omega)] at hc hp
          exact hmh' j c p hj0 hjn hc hp
        · intro j c g _ _ _ h00
          omega
      obtain ⟨l', e1, e2, e3, e4⟩ := sift_down_spec (n + 1)
        { heap with nodes := heap.nodes.set 0 ⟨record, distance⟩ } 0 n hn (by simp; omega)
        (by omega) (by omega) hok
      refine ⟨{ heap with nodes := l' }, ?_, ?_, ?_, ?_,
        Or.inr (Or.inl ⟨hfull, root, hroot, hd, ?_, ?_⟩)⟩
      · unfold heap_push
        rw [if_neg hlt, hr]
        simp only [Option.bind_eq_bind, Option.some_bind, hd, if_true, hw, max_heapify_down]
        have e5 : ((heap.size - 0).toNat + 1) = n + 1 := by omega
        rw [e5]
        exact e1
      · refine ⟨h0, h1, ?_⟩
        show ((l'.length : Nat) : Int) = heap.capacity
        rw [e2]; simpa using h2
      · rfl
      · have : heap.size.toNat = n := by omega
        simpa [MaxHeap.is_max_heap, this] using e4
      · rfl
      · have hsz : heap.size.toNat = n := by omega
        simp only [MaxHeap.retained, hsz]
        refine (e3.cons root).trans ?_
        simp only [List.set_take]
        exact set_cons_perm (heap.nodes.take n) 0 root _ (by
          rw [List.getElem?_take_of_lt (by omega)]; exact hroot)
    · refine ⟨heap, ?_, ⟨h0, h1, h2⟩, rfl, hmh, Or.inr (Or.inr ⟨hfull, root, hroot,
        not_lt.mp hd, rfl⟩)⟩
      unfold heap_push
      rw [if_neg hlt, hr]
      simp [hd]

theorem is_top_k_zero (k : Nat) : is_top_k k (0 : Multiset (HeapNode α)) 0 :=
  ⟨0, by simp, by simp, by simp⟩

theorem is_top_k_add (k : Nat) (M All : Multiset (HeapNode α)) (x : HeapNode α)
    (h : is_top_k k M All) (hlt : Multiset.card M < k) :
    is_top_k k (x ::ₘ M) (x ::ₘ All) := by
  obtain ⟨R, h1, h2, h3⟩ := h
  have hR : R = 0 := by
    have hc : Multiset.card M + Multiset.card R = Multiset.card All := by
      rw [← Multiset.card_add, h1]
    have : Multiset.card R = 0 := by
      rcases Nat.le_total k (Multiset.card All) with h | h
      · rw [Nat.min_eq_left h] at h3; omega
      · rw [Nat.min_eq_right h] at h3; omega
    exact Multiset.card_eq_zero.mp this
  subst hR
  refine ⟨0, by simpa using h1, by simp, ?_⟩
  have : Multiset.card All = Multiset.card M := by rw [← h1]; simp
  simp only [Multiset.card_cons, this]
  omega

theorem is_top_k_replace (k : Nat) (M M' All : Multiset (HeapNode α)) (x root : HeapNode α)
    (h : is_top_k k M All) (hfull : Multiset.card M = k) (hroot : root ∈ M)
    (hmax : ∀ y ∈ M, y.distance ≤ root.distance) (hx : x.distance < root.distance)
    (hM' : root ::ₘ M' = x ::ₘ M) :
    is_top_k k M' (x ::ₘ All) := by
  obtain ⟨R, h1, h2, h3⟩ := h
  refine ⟨root ::ₘ R, ?_, ?_, ?_⟩
  · rw [Multiset.add_cons, ← Multiset.cons_add, hM', Multiset.cons_add, h1]
  · intro y hy z hz
    have hy' : y ∈ x ::ₘ M := by rw [← hM']; exact Multiset.mem_cons_of_mem hy
    have hyr : y.distance ≤ root.distance := by
      rcases Multiset.mem_cons.mp hy' with h | h
      · rw [h]; exact le_of_lt hx
      · exact hmax y h
    rcases Multiset.mem_cons.mp hz with h | h
    · rw [h]; exact hyr
    · exact le_trans hyr (h2 root hroot z h)
  · have hc : Multiset.card M' = Multiset.card M := by
      have := congrArg Multiset.card hM'
      simpa using this
    have hle : k ≤ Multiset.card All := by
      rw [← h1, Multiset.card_add]; omega
    rw [hc, hfull, Multiset.card_cons]
    omega

theorem is_top_k_reject (k : Nat) (M All P : Multiset (HeapNode α))
    (h : is_top_k k M All) (hfull : Multiset.card M = k)
    (hP : ∀ y ∈ M, ∀ z ∈ P, y.distance ≤ z.distance) :
    is_top_k k M (All + P) := by
  obtain ⟨R, h1, h2, h3⟩ := h
  refine ⟨R + P, by rw [← add_assoc, h1], ?_, ?_⟩
  · intro y hy z hz
    rcases Multiset.mem_add.mp hz with h | h
    · exact h2 y hy z h
    · exact hP y hy z h
  · have hle : k ≤ Multiset.card All := by
      rw [← h1, Multiset.card_add]; omega
    rw [hfull, Multiset.card_add]
    omega

/-- The distances of a selection of `k` smallest entries are the `k` smallest
distances found by sorting. -/
theorem is_top_k_distances (k : Nat) (M : Multiset (HeapNode α)) (L : List (HeapNode α))
    (h : is_top_k k M (L : Multiset (HeapNode α))) :
    M.map (fun x => x.distance) = (k_smallest k (L.map fun x => x.distance) : Multiset α) := by
  obtain ⟨R, h1, h2, h3⟩ := h
  let f : HeapNode α → α := fun x => x.distance
  let sM := (M.map f).sort (· ≤ ·)
  let sR := (R.map f).sort (· ≤ ·)
  have hsorted : (sM ++ sR).Sorted (· ≤ ·) := by
    refine List.pairwise_append.mpr ⟨Multiset.sort_sorted _ _, Multiset.sort_sorted _ _, ?_⟩
    intro a ha b hb
    have ha' : a ∈ M.map f := (Multiset.mem_sort _).mp ha
    have hb' : b ∈ R.map f := (Multiset.mem_sort _).mp hb
    obtain ⟨x, hx, rfl⟩ := Multiset.mem_map.mp ha'
    obtain ⟨y, hy, rfl⟩ := Multiset.mem_map.mp hb'
    exact h2 x hx y hy
  have hperm : (sM ++ sR).Perm ((L.map f).insertionSort (· ≤ ·)) := by
    refine List.Perm.trans ?_ (List.perm_insertionSort _ _).symm
    apply Multiset.coe_eq_coe.mp
    rw [← Multiset.coe_add, Multiset.sort_eq, Multiset.sort_eq, ← Multiset.map_add, h1]
    rfl
  have heq : sM ++ sR = (L.map f).insertionSort (· ≤ ·) :=
    List.eq_of_perm_of_sorted hperm hsorted (List.sorted_insertionSort _ _)
  have hlenM : sM.length = Multiset.card M := by simp [sM]
  have hlenR : sR.length = Multiset.card R := by simp [sR]
  have hcard : Multiset.card M + Multiset.card R = L.length := by
    rw [← Multiset.card_add, h1]; rfl
  have htake : (sM ++ sR).take k = sM := by
    rcases Nat.le_total k L.length with hk | hk
    · have : sM.length = k := by
        rw [hlenM, h3]; simp [hk]
      rw [← this]
      exact List.take_left' rfl
    · have hM : Multiset.card M = L.length := by
        rw [h3]; simp [hk]
      have hR0 : sR = [] := List.eq_nil_of_length_eq_zero (by omega)
      rw [hR0, List.append_nil]
      exact List.take_of_length_le (by omega)
  show M.map f = ((((L.map f).insertionSort (· ≤ ·)).take k : List α) : Multiset α)
  rw [← heq, htake]
  exact (Multiset.sort_eq _ _).symm

/-- C7. Replacement policy on a full heap: on a max-heap with
`size = capacity ≥ 1`, whose root is then a maximal retained entry, `heap_push`
leaves the heap (array and size) as it is when the pushed distance is at least
the distance of the root; when it is strictly smaller the size is unchanged and
the retained entries are the old ones with the old root taken out and the new
entry put in. -/
theorem C7_replacement_on_full_heap (heap : MaxHeap α) (record : FaceRecord α) (distance : α)
    (hwf : heap.well_formed) (hmh : heap.is_max_heap)
    (hfull : heap.size = heap.capacity) (hcap : 1 ≤ heap.capacity) :
    ∃ root, heap.read 0 = some root ∧
      (∀ x ∈ heap.retained, x.distance ≤ root.distance) ∧
      (root.distance ≤ distance → heap_push heap record distance = some heap) ∧
      (distance < root.distance →
        ∃ heap', heap_push heap record distance = some heap' ∧
          heap'.size = heap.size ∧ heap'.capacity = heap.capacity ∧
          (heap'.retained : Multiset (HeapNode α)) + {root}
            = (heap.retained : Multiset (HeapNode α)) + {⟨record, distance⟩}) := by
  obtain ⟨heap', hp, -, hc, -, hcase⟩ := heap_push_spec heap record distance hwf hcap hmh
  have hread : ∀ r, heap.nodes[0]? = some r → heap.read 0 = some r := by
    intro r hr
    have := read_natCast heap 0
    simpa [hr] using this
  rcases hcase with ⟨hlt, -⟩ | ⟨-, root, hroot, hd, hs, hperm⟩ | ⟨-, root, hroot, hd, he⟩
  · omega
  · refine ⟨root, hread root hroot, retained_root_max heap hwf hmh root hroot, ?_, ?_⟩
    · intro h; exact absurd hd (not_lt.mpr h)
    · intro _
      refine ⟨heap', hp, hs, hc, ?_⟩
      rw [add_comm, add_comm (heap.retained : Multiset (HeapNode α)), Multiset.singleton_add,
        Multiset.singleton_add, Multiset.cons_coe, Multiset.cons_coe]
      exact Multiset.coe_eq_coe.mpr hperm
  · refine ⟨root, hread root hroot, retained_root_max heap hwf hmh root hroot, ?_, ?_⟩
    · intro _; rw [hp, he]
    · intro h; exact absurd h (not_lt.mpr hd)

omit [LinearOrderedCommRing α] in
theorem retained_length (heap : MaxHeap α) (hwf : heap.well_formed) :
    heap.retained.length = heap.size.toNat := by
  obtain ⟨h0, h1, h2⟩ := hwf
  simp only [MaxHeap.retained, List.length_take]
  omega

omit [LinearOrderedCommRing α] in
theorem root_mem_retained (heap : MaxHeap α) (hpos : 1 ≤ heap.size) (root : HeapNode α)
    (hroot : heap.nodes[0]? = some root) : root ∈ heap.retained := by
  unfold MaxHeap.retained
  have h1 : (heap.nodes.take heap.size.toNat)[0]? = some root := by
    rw [List.getElem?_take_of_lt (by omega)]; exact hroot
  exact List.getElem?_mem h1

/-- One `heap_push` keeps the heap a selection of the `capacity` smallest entries
among all those pushed. -/
theorem heap_push_top_k (heap : MaxHeap α) (record : FaceRecord α) (distance : α)
    (All : Multiset (HeapNode α))
    (hwf : heap.well_formed) (hcap : 1 ≤ heap.capacity) (hmh : heap.is_max_heap)
    (htop : is_top_k heap.capacity.toNat (heap.retained : Multiset (HeapNode α)) All) :
    ∃ heap', heap_push heap record distance = some heap' ∧ heap'.well_formed ∧
      heap'.capacity = heap.capacity ∧ heap'.is_max_heap ∧
      is_top_k heap.capacity.toNat (heap'.retained : Multiset (HeapNode α))
        (⟨record, distance⟩ ::ₘ All) := by
  obtain ⟨heap', hp, hwf', hc, hmh', hcase⟩ := heap_push_spec heap record distance hwf hcap hmh
  refine ⟨heap', hp, hwf', hc, hmh', ?_⟩
  have hlen := retained_length heap hwf
  rcases hcase with ⟨hlt, -, hperm⟩ | ⟨hfull, root, hroot, hd, hs, hperm⟩ |
    ⟨hfull, root, hroot, hd, he⟩
  · have e : (heap'.retained : Multiset (HeapNode α))
        = ⟨record, distance⟩ ::ₘ (heap.retained : Multiset (HeapNode α)) := by
      rw [Multiset.cons_coe]; exact Multiset.coe_eq_coe.mpr hperm
    rw [e]
    refine is_top_k_add _ _ _ _ htop ?_
    rw [Multiset.coe_card, hlen]
    have := hwf.1
    omega
  · refine is_top_k_replace _ (heap.retained : Multiset (HeapNode α)) _ All _ root htop ?_ ?_
      (retained_root_max heap hwf hmh root hroot) hd ?_
    · rw [Multiset.coe_card, hlen, hfull]
    · exact Multiset.mem_coe.mpr (root_mem_retained heap (by omega) root hroot)
    · rw [Multiset.cons_coe, Multiset.cons_coe]; exact Multiset.coe_eq_coe.mpr hperm
  · rw [he]
    have := is_top_k_reject _ _ All {⟨record, distance⟩} htop
      (by rw [Multiset.coe_card, hlen, hfull])
      (by
        intro y hy z hz
        rw [Multiset.mem_singleton.mp hz]
        exact le_trans (retained_root_max heap hwf hmh root hroot y (Multiset.mem_coe.mp hy)) hd)
    rwa [add_comm, Multiset.singleton_add] at this

theorem push_all_top_k (pushes : List (FaceRecord α × α)) : ∀ (heap : MaxHeap α)
    (All : Multiset (HeapNode α)),
    heap.well_formed → 1 ≤ heap.capacity → heap.is_max_heap →
    is_top_k heap.capacity.toNat (heap.retained : Multiset (HeapNode α)) All →
    ∃ heap', push_all heap pushes = some heap' ∧ heap'.well_formed ∧
      heap'.capacity = heap.capacity ∧ heap'.is_max_heap ∧
      is_top_k heap.capacity.toNat (heap'.retained : Multiset (HeapNode α))
        (All + ((pushes.map fun p => (⟨p.1, p.2⟩ : HeapNode α)) : Multiset (HeapNode α))) := by
  induction pushes with
  | nil =>
    intro heap All hwf hcap hmh htop
    exact ⟨heap, rfl, hwf, rfl, hmh, by simpa using htop⟩
  | cons p ps ih =>
    intro heap All hwf hcap hmh htop
    obtain ⟨h1, e1, w1, c1, m1, t1⟩ := heap_push_top_k heap p.1 p.2 All hwf hcap hmh htop
    obtain ⟨h2, e2, w2, c2, m2, t2⟩ := ih h1 _ w1 (by omega) m1 (by rw [c1]; exact t1)
    refine ⟨h2, ?_, w2, by omega, m2, ?_⟩
    · simp only [push_all, List.foldlM_cons, e1, Option.bind_eq_bind, Option.some_bind]
      exact e2
    · rw [c1] at t2
      have e : All + ((((p :: ps).map fun p => (⟨p.1, p.2⟩ : HeapNode α)) : List (HeapNode α))
            : Multiset (HeapNode α))
          = (⟨p.1, p.2⟩ ::ₘ All)
            + ((ps.map fun p => (⟨p.1, p.2⟩ : HeapNode α)) : Multiset (HeapNode α)) := by
        rw [List.map_cons, ← Multiset.cons_coe, Multiset.add_cons, Multiset.cons_add]
      rw [e]
      exact t2

/-- C6. Bounded selection: for every capacity `n ≥ 1` and every finite sequence of
(record, distance) pairs pushed with `heap_push` onto the heap just returned by
`create_max_heap(n)`, all pushes go through, the multiset of the retained
distances is the multiset of the `min(n, m)` smallest of the `m` pushed distances
(all of them when `m ≤ n`), and `size = min(n, m)`. -/
theorem C6_bounded_selection (n : Int) (hn : 1 ≤ n) (m : HeapAlloc α)
    (block : List (HeapNode α)) (hheap : m.heap_ok = true) (hnodes : m.nodes_block = some block)
    (hblock : (block.length : Int) = n) (pushes : List (FaceRecord α × α)) :
    ∃ heap0 heap, create_max_heap m n = some heap0 ∧ push_all heap0 pushes = some heap ∧
      (heap.retained.map fun x => x.distance : Multiset α)
        = (k_smallest n.toNat (pushes.map fun p => p.2) : Multiset α) ∧
      (pushes.length ≤ n.toNat →
        (heap.retained.map fun x => x.distance : Multiset α)
          = (pushes.map fun p => p.2 : Multiset α)) ∧
      heap.size = min n pushes.length := by
  have hwf0 : (⟨block, 0, n⟩ : MaxHeap α).well_formed :=
    ⟨le_refl _, (by show (0 : Int) ≤ n; omega), hblock⟩
  have hmh0 : (⟨block, 0, n⟩ : MaxHeap α).is_max_heap := by
    intro j c p _ hj
    simp at hj
  obtain ⟨heap, e, w, c, mh, t⟩ := push_all_top_k pushes ⟨block, 0, n⟩ 0 hwf0 hn hmh0
    (by simpa [MaxHeap.retained] using is_top_k_zero n.toNat)
  have c' : heap.capacity = n := c
  have t' : is_top_k n.toNat (heap.retained : Multiset (HeapNode α))
      (((pushes.map fun p => (⟨p.1, p.2⟩ : HeapNode α)) : List (HeapNode α))
        : Multiset (HeapNode α)) := by
    simpa using t
  have hd := is_top_k_distances n.toNat _ _ t'
  have hmap : ((pushes.map fun p => (⟨p.1, p.2⟩ : HeapNode α)).map fun x => x.distance)
      = pushes.map fun p => p.2 := by
    simp [List.map_map, Function.comp_def]
  rw [hmap] at hd
  have hd' : (heap.retained.map fun x => x.distance : Multiset α)
      = (k_smallest n.toNat (pushes.map fun p => p.2) : Multiset α) := by
    rw [← hd]; rfl
  refine ⟨⟨block, 0, n⟩, heap, by simp [create_max_heap, hheap, hnodes], e, hd', ?_, ?_⟩
  · intro hle
    rw [hd']
    apply Multiset.coe_eq_coe.mpr
    unfold k_smallest
    rw [List.take_of_length_le (by simpa using hle)]
    exact List.perm_insertionSort _ _
  · obtain ⟨R, -, -, h3⟩ := t'
    rw [Multiset.coe_card, retained_length heap w, Multiset.coe_card, List.length_map] at h3
    have := w.1
    omega

end HeapProperties

/-! ## Properties of the tree -/

section TreeProperties

variable [LinearOrderedCommRing α]

/-- A successful recursive insertion adds exactly the new record. -/
theorem records_insert_recursive (k : Nat) (t : KDNode α) (r : FaceRecord α) (depth : Nat) :
    (_kdtree_insert_recursive k true t r depth).records.Perm (r :: t.records) := by
  induction t generalizing depth with
  | NULL => simp [_kdtree_insert_recursive, KDNode.records]
  | node data left right ihl ihr =>
    simp only [_kdtree_insert_recursive]
    split
    · simp only [KDNode.records]
      refine (List.Perm.cons data ((ihl (depth + 1)).append_right _)).trans ?_
      simpa using List.Perm.swap r data (left.records ++ right.records)
    · simp only [KDNode.records]
      refine (List.Perm.cons data ((ihr (depth + 1)).append_left _)).trans ?_
      refine (List.Perm.cons data List.perm_middle).trans ?_
      exact List.Perm.swap r data (left.records ++ right.records)

theorem mem_records_insert_recursive (k : Nat) (ok : Bool) (t : KDNode α) (r : FaceRecord α)
    (depth : Nat) (x : FaceRecord α)
    (hx : x ∈ (_kdtree_insert_recursive k ok t r depth).records) : x = r ∨ x ∈ t.records := by
  induction t generalizing depth with
  | NULL =>
    cases ok <;> simp [_kdtree_insert_recursive, KDNode.records] at hx
    exact Or.inl hx
  | node data left right ihl ihr =>
    simp only [_kdtree_insert_recursive] at hx
    split at hx
    · simp only [KDNode.records, List.mem_cons, List.mem_append] at hx ⊢
      rcases hx with h | h | h
      · exact Or.inr (Or.inl h)
      · rcases ihl _ h with h | h
        · exact Or.inl h
        · exact Or.inr (Or.inr (Or.inl h))
      · exact Or.inr (Or.inr (Or.inr h))
    · simp only [KDNode.records, List.mem_cons, List.mem_append] at hx ⊢
      rcases hx with h | h | h
      · exact Or.inr (Or.inl h)
      · exact Or.inr (Or.inr (Or.inl h))
      · rcases ihr _ h with h | h
        · exact Or.inl h
        · exact Or.inr (Or.inr (Or.inr h))

/-- The recursive insertion keeps the KD ordering, whether or not the allocation
of the new node succeeds. -/
theorem ordered_insert_recursive (K : Nat) (ok : Bool) (t : KDNode α) (r : FaceRecord α)
    (depth : Nat) (h : t.ordered K depth) :
    (_kdtree_insert_recursive K ok t r depth).ordered K depth := by
  induction t generalizing depth with
  | NULL => cases ok <;> simp [_kdtree_insert_recursive, KDNode.ordered, KDNode.records]
  | node data left right ihl ihr =>
    obtain ⟨hl, hr, hol, hor⟩ := h
    simp only [_kdtree_insert_recursive]
    split
    · rename_i hlt
      refine ⟨?_, hr, ihl _ hol, hor⟩
      intro x hx
      rcases mem_records_insert_recursive K ok left r _ x hx with h | h
      · rw [h]; exact hlt
      · exact hl x h
    · rename_i hlt
      refine ⟨hl, ?_, hol, ihr _ hor⟩
      intro x hx
      rcases mem_records_insert_recursive K ok right r _ x hx with h | h
      · rw [h]; exact not_lt.mp hlt
      · exact hr x h

theorem insert_all_ordered (g : Globals α) (rs : List (FaceRecord α))
    (h : g.tree_initialized = true) (ho : g.global_kd_tree.root.ordered g.global_kd_tree.k 0) :
    (insert_all g rs).global_kd_tree.root.ordered g.global_kd_tree.k 0 := by
  induction rs generalizing g with
  | nil => exact ho
  | cons r rs ih =>
    have h1 : (kdtree_insert_global g true (some r)).tree_initialized = true := by
      simp [kdtree_insert_global, h]
    have h2 : (kdtree_insert_global g true (some r)).global_kd_tree.k = g.global_kd_tree.k := by
      simp [kdtree_insert_global, h]
    have h3 : (kdtree_insert_global g true (some r)).global_kd_tree.root.ordered
        (kdtree_insert_global g true (some r)).global_kd_tree.k 0 := by
      rw [h2]
      simp only [kdtree_insert_global, h, Bool.not_true, Bool.false_eq_true, if_false]
      exact ordered_insert_recursive _ true _ r 0 ho
    have := ih (kdtree_insert_global g true (some r)) h1 h3
    rw [h2] at this
    exact this

/-- C4. KD ordering invariant: starting from an empty initialised index, after any
finite sequence of successful `kdtree_insert_global` calls, every node at depth
`d` has, on the axis `d % K`, all records of its left subtree strictly below its
own record and all records of its right subtree at or above it. -/
theorem C4_kd_ordering_after_insertions (K : Nat) (g0 : Globals α)
    (records : List (FaceRecord α)) :
    (insert_all (kdtree_initialize_global K g0) records).global_kd_tree.root.ordered K 0 := by
  have := insert_all_ordered (kdtree_initialize_global K g0) records rfl
    (by simp [kdtree_initialize_global, KDNode.ordered])
  simpa [kdtree_initialize_global] using this

theorem is_descent_cons (k depth : Nat) (data : FaceRecord α) (left right : KDNode α)
    (record : FaceRecord α) (b : Bool) (path : List Bool)
    (hb : b = true ↔ record.embedding (depth % k) < data.embedding (depth % k))
    (h : is_descent k (depth + 1) (if b then left else right) record path) :
    is_descent k depth (.node data left right) record (b :: path) := by
  intro i hi
  cases i with
  | zero => exact ⟨data, left, right, by simp [KDNode.subtree_at], by simpa using hb⟩
  | succ i =>
    obtain ⟨d, l, r, h1, h2⟩ := h i (by simpa using hi)
    refine ⟨d, l, r, ?_, ?_⟩
    · cases b <;> simpa [KDNode.subtree_at] using h1
    · have : depth + (i + 1) = depth + 1 + i := by omega
      rw [this]
      simpa using h2

theorem is_descent_tail (k depth : Nat) (data : FaceRecord α) (left right : KDNode α)
    (record : FaceRecord α) (b : Bool) (path : List Bool)
    (h : is_descent k depth (.node data left right) record (b :: path)) :
    (b = true ↔ record.embedding (depth % k) < data.embedding (depth % k)) ∧
    is_descent k (depth + 1) (if b then left else right) record path := by
  constructor
  · obtain ⟨d, l, r, h1, h2⟩ := h 0 (by simp)
    simp only [List.take_zero, KDNode.subtree_at, Option.some.injEq, KDNode.node.injEq] at h1
    obtain ⟨rfl, -, -⟩ := h1
    simpa using h2
  · intro i hi
    obtain ⟨d, l, r, h1, h2⟩ := h (i + 1) (by simpa using hi)
    refine ⟨d, l, r, ?_, ?_⟩
    · cases b <;> simpa [KDNode.subtree_at] using h1
    · have : depth + (i + 1) = depth + 1 + i := by omega
      rw [this] at h2
      simpa using h2

/-- The recursive insertion grafts a new leaf at the end of the descent of the
record, which is an empty slot. -/
theorem insert_recursive_graft (k : Nat) (t : KDNode α) (record : FaceRecord α) (depth : Nat) :
    ∃ path, is_descent k depth t record path ∧ t.subtree_at path = some .NULL ∧
      _kdtree_insert_recursive k true t record depth
        = t.graft path (.node record .NULL .NULL) := by
  induction t generalizing depth with
  | NULL =>
    refine ⟨[], ?_, rfl, ?_⟩
    · intro i hi; simp at hi
    · simp [_kdtree_insert_recursive, KDNode.graft]
  | node data left right ihl ihr =>
    by_cases hlt : record.embedding (depth % k) < data.embedding (depth % k)
    · obtain ⟨p, hp1, hp2, hp3⟩ := ihl (depth + 1)
      refine ⟨true :: p, is_descent_cons k depth data left right record true p (by simpa using hlt)
        (by simpa using hp1), by simpa [KDNode.subtree_at] using hp2, ?_⟩
      simp [_kdtree_insert_recursive, KDNode.graft, hlt, hp3]
    · obtain ⟨p, hp1, hp2, hp3⟩ := ihr (depth + 1)
      refine ⟨false :: p, is_descent_cons k depth data left right record false p
        (by simpa using hlt) (by simpa using hp1), by simpa [KDNode.subtree_at] using hp2, ?_⟩
      simp [_kdtree_insert_recursive, KDNode.graft, hlt, hp3]

/-- A record whose descent reaches a node and that is not strictly below that node
on its split axis is inserted into the right subtree of the node; the node and its
left subtree stay as they are. -/
theorem insert_recursive_at_reached_node (k : Nat) (ok : Bool) (path : List Bool) (t : KDNode α)
    (record : FaceRecord α) (depth : Nat) (data : FaceRecord α) (left right : KDNode α)
    (hnode : t.subtree_at path = some (.node data left right))
    (hreach : is_descent k depth t record path)
    (hge : ¬ record.embedding ((depth + path.length) % k)
        < data.embedding ((depth + path.length) % k)) :
    (_kdtree_insert_recursive k ok t record depth).subtree_at path
      = some (.node data left
          (_kdtree_insert_recursive k ok right record (depth + path.length + 1))) := by
  induction path generalizing t depth with
  | nil =>
    simp only [KDNode.subtree_at, Option.some.injEq] at hnode
    subst hnode
    simp only [List.length_nil, Nat.add_zero] at hge ⊢
    simp [_kdtree_insert_recursive, hge, KDNode.subtree_at]
  | cons b path ih =>
    cases t with
    | NULL => simp [KDNode.subtree_at] at hnode
    | node d l r =>
      obtain ⟨hb, htail⟩ := is_descent_tail k depth d l r record b path hreach
      have hlen : depth + (b :: path).length = depth + 1 + path.length := by
        simp only [List.length_cons]; omega
      rw [hlen] at hge ⊢
      cases b with
      | true =>
        have hlt := hb.mp rfl
        simp only [KDNode.subtree_at, if_true] at hnode
        simp only [_kdtree_insert_recursive, hlt, if_true, KDNode.subtree_at]
        exact ih l (depth + 1) hnode (by simpa using htail) hge
      | false =>
        have hlt : ¬ record.embedding (depth % k) < d.embedding (depth % k) := by
          intro h; exact absurd (hb.mpr h) (by simp)
        simp only [KDNode.subtree_at, Bool.false_eq_true, if_false] at hnode
        simp only [_kdtree_insert_recursive, hlt, if_false, KDNode.subtree_at,
          Bool.false_eq_true]
        exact ih r (depth + 1) hnode (by simpa using htail) hge

/-- C5. Degenerate search: `kdtree_find_n_nearest_global` and
`EXPORT_buscar_n_vizinhos` return 0 and leave the output array as it was whenever
the index is not initialised, or its root is empty, or `k ≤ 0`, for every query
and every content of the array. -/
theorem C5_degenerate_search (K : Nat) (sqrt : α → α)
    (punned_distance : (Nat → α) → List Char → α) (g : Globals α) (m : HeapAlloc α)
    (query_record : FaceRecord α) (n_neighbors : Int) (found_neighbors : List (FaceRecord α))
    (h : g.tree_initialized = false ∨ g.global_kd_tree.root = .NULL ∨ n_neighbors ≤ 0) :
    kdtree_find_n_nearest_global K sqrt punned_distance g m query_record n_neighbors
        found_neighbors = some (0, found_neighbors) ∧
    EXPORT_buscar_n_vizinhos K sqrt punned_distance g m query_record n_neighbors
        found_neighbors = some (0, found_neighbors) := by
  have hfind : kdtree_find_n_nearest_global K sqrt punned_distance g m query_record
      n_neighbors found_neighbors = some (0, found_neighbors) := by
    unfold kdtree_find_n_nearest_global
    rcases h with h | h | h
    · simp [h]
    · simp [h, KDNode.isNULL]
    · simp [h]
  refine ⟨hfind, ?_⟩
  unfold EXPORT_buscar_n_vizinhos
  split
  · rfl
  · exact hfind

/-- Witness of C5 on an index that was never initialised, with `k = 5`. -/
theorem C5_degenerate_search_witness :
    kdtree_find_n_nearest_global 3 (fun x : Int => x) (fun e _ => e 0) initial_globals
        ⟨true, some []⟩ (uniform_point 0) 5 [] = some (0, []) ∧
    EXPORT_buscar_n_vizinhos 3 (fun x : Int => x) (fun e _ => e 0) initial_globals
        ⟨true, some []⟩ (uniform_point 0) 5 [] = some (0, []) :=
  C5_degenerate_search 3 (fun x : Int => x) (fun e _ => e 0) initial_globals
    ⟨true, some []⟩ (uniform_point 0) 5 [] (Or.inl rfl)

/-- C9. Insertion placement: on an initialised index with an empty root a
successful `kdtree_insert_global` makes the record the root, with both child slots
empty; in every case the record becomes a new leaf, with both child slots empty,
in the empty slot at the end of the descent from the root that goes left at a
node of depth `d` exactly when the record is strictly below the node on the axis
`d % k` (so an equal coordinate goes right), and the rest of the tree is kept. -/
theorem C9_insertion_placement (g : Globals α) (record : FaceRecord α)
    (hinit : g.tree_initialized = true) :
    (g.global_kd_tree.root = .NULL →
      (kdtree_insert_global g true (some record)).global_kd_tree.root
        = .node record .NULL .NULL) ∧
    ∃ path, is_descent g.global_kd_tree.k 0 g.global_kd_tree.root record path ∧
      g.global_kd_tree.root.subtree_at path = some .NULL ∧
      (kdtree_insert_global g true (some record)).global_kd_tree.root
        = g.global_kd_tree.root.graft path (.node record .NULL .NULL) := by
  have hroot : (kdtree_insert_global g true (some record)).global_kd_tree.root
      = _kdtree_insert_recursive g.global_kd_tree.k true g.global_kd_tree.root record 0 := by
    simp [kdtree_insert_global, hinit]
  rw [hroot]
  refine ⟨?_, insert_recursive_graft _ _ record 0⟩
  intro h
  rw [h]
  simp [_kdtree_insert_recursive]

/-- Witness of C9: the first insertion into a fresh index with three axes. -/
theorem C9_insertion_placement_witness :
    ((fresh_index 3).global_kd_tree.root = .NULL →
      (kdtree_insert_global (fresh_index 3) true (some (uniform_point 1))).global_kd_tree.root
        = .node (uniform_point 1) .NULL .NULL) ∧
    ∃ path, is_descent (fresh_index 3).global_kd_tree.k 0 (fresh_index 3).global_kd_tree.root
        (uniform_point 1) path ∧
      (fresh_index 3).global_kd_tree.root.subtree_at path = some .NULL ∧
      (kdtree_insert_global (fresh_index 3) true (some (uniform_point 1))).global_kd_tree.root
        = (fresh_index 3).global_kd_tree.root.graft path (.node (uniform_point 1) .NULL .NULL) :=
  C9_insertion_placement (fresh_index 3) (uniform_point 1) rfl

/-- C10, as stated, fails: with 128 axes, the point `(1, 0, 0, ...)` is inserted
into a fresh index and then the origin, which has the same coordinate on axis 1;
the origin ends in the left subtree of the node of the first point. -/
theorem C10_same_coordinate_goes_left :
    first_axis_point.embedding 1 = (uniform_point 0).embedding 1 ∧
    (kdtree_insert_global
      (kdtree_insert_global (fresh_index 128) true (some first_axis_point))
      true (some (uniform_point 0))).global_kd_tree.root
      = .node first_axis_point (.node (uniform_point 0) .NULL .NULL) .NULL :=
  ⟨rfl, rfl⟩

/-- C10, amended. Two points are inserted one after the other into an initialised
index. If the descent of the later point reaches the node holding the earlier
point, and the two points have the same coordinate on the split axis of that node
(its depth modulo `k`), then the later point is inserted into the right subtree
of that node: the node keeps its record and its left subtree, and its right
subtree gains exactly the later point. -/
theorem C10_tie_on_split_axis_goes_right (g : Globals α) (earlier later : FaceRecord α)
    (path : List Bool) (left right : KDNode α)
    (hinit : g.tree_initialized = true)
    (hnode : (kdtree_insert_global g true (some earlier)).global_kd_tree.root.subtree_at path
      = some (.node earlier left right))
    (hreach : is_descent g.global_kd_tree.k 0
      (kdtree_insert_global g true (some earlier)).global_kd_tree.root later path)
    (htie : later.embedding (path.length % g.global_kd_tree.k)
      = earlier.embedding (path.length % g.global_kd_tree.k)) :
    ∃ right',
      (kdtree_insert_global (kdtree_insert_global g true (some earlier)) true
        (some later)).global_kd_tree.root.subtree_at path = some (.node earlier left right') ∧
      right'.records.Perm (later :: right.records) := by
  have h1 : (kdtree_insert_global g true (some earlier)).tree_initialized = true := by
    simp [kdtree_insert_global, hinit]
  have h2 : (kdtree_insert_global g true (some earlier)).global_kd_tree.k
      = g.global_kd_tree.k := by
    simp [kdtree_insert_global, hinit]
  refine ⟨_kdtree_insert_recursive g.global_kd_tree.k true right later (0 + path.length + 1),
    ?_, records_insert_recursive _ _ _ _⟩
  have hroot : (kdtree_insert_global (kdtree_insert_global g true (some earlier)) true
      (some later)).global_kd_tree.root
      = _kdtree_insert_recursive g.global_kd_tree.k true
          (kdtree_insert_global g true (some earlier)).global_kd_tree.root later 0 := by
    simp [kdtree_insert_global, hinit]
  rw [hroot]
  refine insert_recursive_at_reached_node _ true path _ later 0 earlier left right hnode hreach ?_
  simp only [Nat.zero_add]
  rw [htie]
  exact lt_irrefl _

/-- Witness of C10, amended: the origin is inserted twice into a fresh index with
three axes; the second copy reaches the root and becomes its right child. -/
theorem C10_tie_on_split_axis_goes_right_witness :
    ∃ right',
      (kdtree_insert_global (kdtree_insert_global (fresh_index 3) true (some (uniform_point 0)))
        true (some (uniform_point 0))).global_kd_tree.root.subtree_at []
        = some (.node (uniform_point 0) .NULL right') ∧
      right'.records.Perm (uniform_point 0 :: (KDNode.NULL : KDNode Int).records) :=
  C10_tie_on_split_axis_goes_right (fresh_index 3) (uniform_point 0) (uniform_point 0) []
    .NULL .NULL rfl rfl (fun i hi => absurd hi (by simp)) rfl

theorem far_side_needed_spec (heap : MaxHeap α) (a : α) (hwf : heap.well_formed)
    (hcap : 1 ≤ heap.capacity) :
    (heap.size < heap.capacity ∧ far_side_needed heap a = some true) ∨
    (heap.size = heap.capacity ∧ ∃ root, heap.nodes[0]? = some root ∧
      far_side_needed heap a = some (decide (a < root.distance))) := by
  obtain ⟨h0, h1, h2⟩ := hwf
  by_cases hlt : heap.size < heap.capacity
  · exact Or.inl ⟨hlt, by simp [far_side_needed, hlt]⟩
  · obtain ⟨root, hroot⟩ : ∃ r, heap.nodes[0]? = some r :=
      ⟨_, List.getElem?_eq_getElem (by omega)⟩
    have hr : heap.read 0 = some root := by
      have := read_natCast heap 0
      simpa [hroot] using this
    exact Or.inr ⟨by omega, root, hroot, by simp [far_side_needed, hlt, hr]⟩

omit [LinearOrderedCommRing α] in
/-- The copy loop returns when both arrays are long enough; it fills the slots
`i .. i + remaining - 1` with copies of the heap entries and leaves the others. -/
theorem copy_neighbors_spec (K : Nat) (sqrt : α → α) (heap : MaxHeap α) (remaining : Nat) :
    ∀ (i : Nat) (found : List (FaceRecord α)),
    i + remaining ≤ heap.nodes.length → i + remaining ≤ found.length →
    ∃ out, copy_neighbors K sqrt heap remaining i found = some out ∧
      out.length = found.length ∧
      (∀ j, j < i ∨ i + remaining ≤ j → out[j]? = found[j]?) ∧
      (∀ j, i ≤ j → j < i + remaining → ∃ src o, heap.nodes[j]? = some src ∧
        out[j]? = some o ∧ is_copy K sqrt src o) := by
  induction remaining with
  | zero =>
    intro i found _ _
    exact ⟨found, rfl, rfl, fun _ _ => rfl, fun j h1 h2 => by omega⟩
  | succ remaining ih =>
    intro i found hn hf
    obtain ⟨src, hsrc⟩ : ∃ s, heap.nodes[i]? = some s :=
      ⟨_, List.getElem?_eq_getElem (by omega)⟩
    obtain ⟨dst, hdst⟩ : ∃ s, found[i]? = some s :=
      ⟨_, List.getElem?_eq_getElem (by omega)⟩
    obtain ⟨out, e, hlen, hsame, hcopy⟩ := ih (i + 1)
      (found.set i
        { embedding := fun j => if j < K then src.record.embedding j else dst.embedding j
          person_id := src.record.person_id.take (MAX_ID_LENGTH - 1)
          distance_to_query := sqrt src.distance })
      (by omega) (by simp; omega)
    refine ⟨out, ?_, by simpa using hlen, ?_, ?_⟩
    · simp only [copy_neighbors, read_natCast, hsrc, hdst, Option.bind_eq_bind,
        Option.some_bind]
      exact e
    · intro j hj
      rw [hsame j (by omega), List.getElem?_set_ne (by omega)]
    · intro j h1 h2
      by_cases hji : j = i
      · subst hji
        refine ⟨src,
          { embedding := fun c => if c < K then src.record.embedding c else dst.embedding c
            person_id := src.record.person_id.take (MAX_ID_LENGTH - 1)
            distance_to_query := sqrt src.distance }, hsrc, ?_, ?_⟩
        · rw [hsame j (by omega), List.getElem?_set_self (by omega)]
        · exact ⟨fun c hc => by simp [hc], rfl, rfl⟩
      · exact hcopy j (by omega) (by omega)

set_option maxRecDepth 100000 in
theorem two_point_heap :
    _kdtree_knn_recursive 128 128 two_point_index.global_kd_tree.root (uniform_point 2) 0
        { nodes := [{ record := uniform_point 0, distance := 0 },
            { record := uniform_point 0, distance := 0 }], size := 0, capacity := 2 }
      = some { nodes := [{ record := uniform_point 1, distance := 128 },
            { record := uniform_point 2, distance := 0 }], size := 2, capacity := 2 } := by
  rfl

/-- C2 fails on the code. The index has 128 axes and holds `(1, 1, ...)` and
`(2, 2, ...)`; the query is `(2, 2, ...)` and `k = 2`. Whenever the bytes that the
comparator reads in a record with all coordinates 1 compare below those it reads
in a record with all coordinates 2, `qsort` leaves the farther point first: the
call returns 2 and the values of `distance_to_query` in the output, in order, are
`sqrt 128` and `sqrt 0`, which is not ascending. -/
theorem C2_order_follows_embedding_bytes (sqrt : Int → Int)
    (punned_distance : (Nat → Int) → List Char → Int)
    (hsqrt : sqrt 0 < sqrt 128)
    (hpun : ∀ e₁ e₂ : Nat → Int, (∀ j, j < 128 → e₁ j = 1) → (∀ j, j < 128 → e₂ j = 2) →
      punned_distance e₁ [] < punned_distance e₂ []) :
    ∃ out, kdtree_find_n_nearest_global 128 sqrt punned_distance two_point_index two_slot_alloc
        (uniform_point 2) 2 [uniform_point 0, uniform_point 0] = some (2, out) ∧
      out.map (fun r => r.distance_to_query) = [sqrt 128, sqrt 0] ∧
      ¬ (out.map fun r => r.distance_to_query).Sorted (· ≤ ·) := by
  have hinit : two_point_index.tree_initialized = true := rfl
  have hroot : two_point_index.global_kd_tree.root.isNULL = false := rfl
  have hk : two_point_index.global_kd_tree.k = 128 := rfl
  have hlt := hpun
    (fun j => if j < 128 then (uniform_point 1).embedding j else (uniform_point 0).embedding j)
    (fun j => if j < 128 then (uniform_point 2).embedding j else (uniform_point 0).embedding j)
    (fun j hj => by simp [hj, uniform_point]) (fun j hj => by simp [hj, uniform_point])
  have hfind : kdtree_find_n_nearest_global 128 sqrt punned_distance two_point_index
      two_slot_alloc (uniform_point 2) 2 [uniform_point 0, uniform_point 0]
      = some (2,
        [{ embedding := fun j =>
              if j < 128 then (uniform_point 1).embedding j else (uniform_point 0).embedding j
           person_id := []
           distance_to_query := sqrt 128 },
         { embedding := fun j =>
              if j < 128 then (uniform_point 2).embedding j else (uniform_point 0).embedding j
           person_id := []
           distance_to_query := sqrt 0 }]) := by
    unfold kdtree_find_n_nearest_global
    simp only [hinit, hroot, hk, Bool.not_true, Bool.or_self, Bool.false_eq_true, if_false,
      create_max_heap, two_slot_alloc, two_point_heap, Option.bind_eq_bind, Option.some_bind,
      Option.pure_def]
    simp only [copy_neighbors, MaxHeap.read, qsort, compare_heap_nodes,
      FaceRecord.as_heap_node]
    have hp1 : (uniform_point 1).person_id = [] := rfl
    have hp2 : (uniform_point 2).person_id = [] := rfl
    simp [hp1, hp2, hlt, List.insertionSort, List.orderedInsert]
  refine ⟨_, hfind, rfl, ?_⟩
  simp only [List.map_cons, List.map_nil, List.sorted_cons, List.mem_singleton, forall_eq]
  intro h
  exact absurd h.1 (not_le.mpr hsqrt)

theorem one_slot_heap_well_formed : one_slot_heap.well_formed :=
  ⟨by decide, by decide, rfl⟩

theorem one_slot_heap_is_max_heap : one_slot_heap.is_max_heap := by
  intro j c p hj0 hj1
  have : one_slot_heap.size.toNat = 1 := rfl
  omega

/-- Witness of the evaluation for C2: the square root stood in for by the
identity, the bytes read by the comparator by the first coordinate. -/
theorem C2_order_follows_embedding_bytes_witness :
    ∃ out, kdtree_find_n_nearest_global 128 (fun x : Int => x) (fun e _ => e 0) two_point_index
        two_slot_alloc (uniform_point 2) 2 [uniform_point 0, uniform_point 0] = some (2, out) ∧
      out.map (fun r => r.distance_to_query) = [(fun x : Int => x) 128, (fun x : Int => x) 0] ∧
      ¬ (out.map fun r => r.distance_to_query).Sorted (· ≤ ·) :=
  C2_order_follows_embedding_bytes (fun x : Int => x) (fun e _ => e 0) (by decide)
    (fun e₁ e₂ h1 h2 => by
      show e₁ 0 < e₂ 0
      rw [h1 0 (by decide), h2 0 (by decide)]; decide)

/-- Witness of C6: capacity 1, the distances 3 and then 1 are pushed. -/
theorem C6_bounded_selection_witness :
    ∃ heap0 heap, create_max_heap one_slot_alloc 1 = some heap0 ∧
      push_all heap0 [(uniform_point 3, 3), (uniform_point 1, 1)] = some heap ∧
      (heap.retained.map fun x => x.distance : Multiset Int)
        = (k_smallest (1 : Int).toNat
            ([(uniform_point 3, (3 : Int)), (uniform_point 1, 1)].map fun p => p.2)
              : Multiset Int) ∧
      ([(uniform_point 3, (3 : Int)), (uniform_point 1, 1)].length ≤ (1 : Int).toNat →
        (heap.retained.map fun x => x.distance : Multiset Int)
          = ([(uniform_point 3, (3 : Int)), (uniform_point 1, 1)].map fun p => p.2
              : Multiset Int)) ∧
      heap.size = min 1 ([(uniform_point 3, (3 : Int)), (uniform_point 1, 1)].length : Int) :=
  C6_bounded_selection 1 (by decide) one_slot_alloc
    [{ record := uniform_point 0, distance := 0 }] rfl rfl rfl
    [(uniform_point 3, 3), (uniform_point 1, 1)]

/-- Witness of C7: the full one-slot heap holding distance 5, distance 3 pushed. -/
theorem C7_replacement_on_full_heap_witness :
    ∃ root, one_slot_heap.read 0 = some root ∧
      (∀ x ∈ one_slot_heap.retained, x.distance ≤ root.distance) ∧
      (root.distance ≤ 3 → heap_push one_slot_heap (uniform_point 3) 3 = some one_slot_heap) ∧
      ((3 : Int) < root.distance →
        ∃ heap', heap_push one_slot_heap (uniform_point 3) 3 = some heap' ∧
          heap'.size = one_slot_heap.size ∧ heap'.capacity = one_slot_heap.capacity ∧
          (heap'.retained : Multiset (HeapNode Int)) + {root}
            = (one_slot_heap.retained : Multiset (HeapNode Int))
              + {⟨uniform_point 3, 3⟩}) :=
  C7_replacement_on_full_heap one_slot_heap (uniform_point 3) 3 one_slot_heap_well_formed
    one_slot_heap_is_max_heap rfl (by decide)

omit [LinearOrderedCommRing α] in
/-- C11. Idempotence of reset: from every prior state, `EXPORT_kdtree_construir`
called twice in a row leaves exactly the state that one call leaves: the root
empty, `k = K_DIMENSIONS` and the index marked initialised. -/
theorem C11_reset_idempotent (K : Nat) (g : Globals α) :
    EXPORT_kdtree_construir K (EXPORT_kdtree_construir K g) = EXPORT_kdtree_construir K g ∧
    EXPORT_kdtree_construir K g
      = { global_kd_tree := { root := .NULL, k := K }, tree_initialized := true } := by
  constructor <;> rfl

/-- The recursive insertion whose allocation fails gives back the tree it got. -/
theorem insert_recursive_failed (k : Nat) (t : KDNode α) (r : FaceRecord α) (depth : Nat) :
    _kdtree_insert_recursive k false t r depth = t := by
  induction t generalizing depth with
  | NULL => simp [_kdtree_insert_recursive]
  | node data left right ihl ihr =>
    simp only [_kdtree_insert_recursive]
    split
    · rw [ihl]
    · rw [ihr]

/-- C12. Atomicity of failed insertion: on every initialised index, empty or not,
and for every record, when the allocation of the node fails the index after
`kdtree_insert_global` is exactly the index before the call: same root, same
nodes, same child slots, same stored records. -/
theorem C12_failed_insertion_keeps_tree (g : Globals α) (record : FaceRecord α)
    (hinit : g.tree_initialized = true) :
    kdtree_insert_global g false (some record) = g := by
  cases g with
  | mk tree init =>
    cases tree with
    | mk root k =>
      simp only at hinit
      simp [kdtree_insert_global, hinit, insert_recursive_failed]

/-- C13. Rejected insertion is a no-op: when the index is not initialised or the
record passed is null, `kdtree_insert_global` leaves the whole state as it was
(flag, root and tree) and inserts nothing, whatever the allocator would do. -/
theorem C13_rejected_insertion_noop (g : Globals α) (malloc_ok : Bool)
    (record_to_insert : Option (FaceRecord α))
    (h : g.tree_initialized = false ∨ record_to_insert = none) :
    kdtree_insert_global g malloc_ok record_to_insert = g := by
  rcases h with h | h
  · simp [kdtree_insert_global, h]
  · subst h
    unfold kdtree_insert_global
    split <;> rfl

/-- C14, as stated, fails: with capacity 0 and both allocations granted (an
allocation of zero bytes may give a block), `create_max_heap` returns a heap. -/
theorem C14_zero_capacity_heap_created :
    create_max_heap ({ heap_ok := true, nodes_block := some [] } : HeapAlloc Int) 0
      = some { nodes := [], size := 0, capacity := 0 } :=
  rfl

omit [LinearOrderedCommRing α] in
/-- C14, amended. `create_max_heap` does not look at the capacity: for every
capacity, positive or not, it fails exactly when one of its two allocations
fails, and the heap it returns otherwise has size 0, the given capacity and the
block obtained for the nodes. -/
theorem C14_create_fails_only_on_allocation (m : HeapAlloc α) (capacity : Int) :
    (create_max_heap m capacity = none ↔ (m.heap_ok = false ∨ m.nodes_block = none)) ∧
    ∀ heap, create_max_heap m capacity = some heap →
      heap.size = 0 ∧ heap.capacity = capacity ∧ m.nodes_block = some heap.nodes := by
  cases m with
  | mk ok blk =>
    cases ok <;> cases blk <;> simp [create_max_heap]

/-- `max_heapify_up` on a slot below `size` returns, whatever the order of the
slots: every access is inside the block and the nested calls end. -/
theorem sift_up_total (fuel : Nat) : ∀ (heap : MaxHeap α) (i n : Nat),
    heap.size = n → n ≤ heap.nodes.length → i < n → i < fuel →
    ∃ l', max_heapify_up_fuel fuel heap i = some { heap with nodes := l' } ∧
      l'.length = heap.nodes.length := by
  induction fuel with
  | zero => intro heap i n _ _ _ hf; omega
  | succ fuel ih =>
    intro heap i n hsize hlen hin hfuel
    by_cases hi0 : i = 0
    · subst hi0
      exact ⟨heap.nodes, by simp [max_heapify_up_fuel], rfl⟩
    · have hipos : 0 < i := Nat.pos_of_ne_zero hi0
      obtain ⟨child, hchild⟩ : ∃ c, heap.nodes[i]? = some c :=
        ⟨_, List.getElem?_eq_getElem (by omega)⟩
      obtain ⟨parent, hparent⟩ : ∃ c, heap.nodes[(i - 1) / 2]? = some c :=
        ⟨_, List.getElem?_eq_getElem (by omega)⟩
      rw [up_step fuel heap i hipos, hchild, hparent]
      by_cases hgt : child.distance > parent.distance
      · have hsw := swap_natCast heap i ((i - 1) / 2) child parent hchild hparent
        obtain ⟨l', h1, h2⟩ := ih
          { heap with nodes := (heap.nodes.set i parent).set ((i - 1) / 2) child }
          ((i - 1) / 2) n hsize (by simpa using hlen) (by omega) (by omega)
        refine ⟨l', ?_, by simpa using h2⟩
        simp only [Option.some_bind, hgt, if_true, hsw]
        exact h1
      · exact ⟨heap.nodes, by simp only [Option.some_bind, hgt, if_false], rfl⟩

/-- `max_heapify_down` on a slot below `size` returns, whatever the order of the
slots: every access is inside the block and the nested calls end. -/
theorem sift_down_total (fuel : Nat) : ∀ (heap : MaxHeap α) (i n : Nat),
    heap.size = n → n ≤ heap.nodes.length → i < n → n < fuel + i →
    ∃ l', max_heapify_down_fuel fuel heap i = some { heap with nodes := l' } ∧
      l'.length = heap.nodes.length := by
  induction fuel with
  | zero => intro heap i n _ _ _ hf; omega
  | succ fuel ih =>
    intro heap i n hsize hlen hin hfuel
    obtain ⟨c, hc⟩ : ∃ c, heap.nodes[i]? = some c := ⟨_, List.getElem?_eq_getElem (by omega)⟩
    obtain ⟨x, hx, hmn, hne, -, -⟩ := largest_of_spec heap.nodes n i c hlen hin hc
    rw [down_step fuel heap i n hsize hlen hin]
    by_cases hl : largest_of heap.nodes n i = i
    · exact ⟨heap.nodes, by simp [hl], rfl⟩
    · obtain ⟨hm0, hmp, -⟩ := hne hl
      have hsw := swap_natCast heap i (largest_of heap.nodes n i) c x hc hx
      obtain ⟨l', h1, h2⟩ := ih
        { heap with nodes := (heap.nodes.set i x).set (largest_of heap.nodes n i) c }
        (largest_of heap.nodes n i) n hsize (by simpa using hlen) hmn (by omega)
      refine ⟨l', ?_, by simpa using h2⟩
      rw [if_pos hl, hsw]
      exact h1

/-- `heap_push` on a heap with at least one slot returns a heap of the same
capacity with `0 ≤ size ≤ capacity`, whatever the order of the slots. -/
theorem heap_push_total (heap : MaxHeap α) (record : FaceRecord α) (distance : α)
    (hwf : heap.well_formed) (hcap : 1 ≤ heap.capacity) :
    ∃ heap', heap_push heap record distance = some heap' ∧ heap'.well_formed ∧
      heap'.capacity = heap.capacity := by
  obtain ⟨h0, h1, h2⟩ := hwf
  obtain ⟨n, hn⟩ : ∃ n : Nat, heap.size = n := ⟨heap.size.toNat, by omega⟩
  by_cases hlt : heap.size < heap.capacity
  · have hnlen : n < heap.nodes.length := by omega
    have hw := write_natCast heap n ⟨record, distance⟩ hnlen
    obtain ⟨l', e1, e2⟩ := sift_up_total (n + 1)
      { nodes := heap.nodes.set n ⟨record, distance⟩, size := ((n + 1 : Nat) : Int),
        capacity := heap.capacity } n (n + 1) rfl (by simp; omega) (by omega) (by omega)
    refine ⟨{ nodes := l', size := ((n + 1 : Nat) : Int), capacity := heap.capacity },
      ?_, ?_, rfl⟩
    · unfold heap_push
      rw [if_pos hlt, hn, hw]
      simp only [Option.bind_eq_bind, Option.some_bind, max_heapify_up, hn]
      have e5 : ((n : Int) + 1 - 1) = n := by omega
      rw [e5]
      have e6 : ((n : Int)).toNat + 1 = n + 1 := by simp
      rw [e6]
      have e7 : ((n : Int) + 1) = ((n + 1 : Nat) : Int) := by simp
      rw [e7]
      exact e1
    · refine ⟨by simp; omega, by simp; omega, ?_⟩
      show ((l'.length : Nat) : Int) = heap.capacity
      rw [e2]; simpa using h2
  · have hn1 : 1 ≤ n := by omega
    obtain ⟨root, hroot⟩ : ∃ r, heap.nodes[0]? = some r :=
      ⟨_, List.getElem?_eq_getElem (by omega)⟩
    have hr : heap.read 0 = some root := by
      have := read_natCast heap 0
      simpa [hroot] using this
    by_cases hd : distance < root.distance
    · have hw : heap.write 0 ⟨record, distance⟩
          = some { heap with nodes := heap.nodes.set 0 ⟨record, distance⟩ } := by
        have := write_natCast heap 0 ⟨record, distance⟩ (by omega)
        simpa using this
      obtain ⟨l', e1, e2⟩ := sift_down_total (n + 1)
        { heap with nodes := heap.nodes.set 0 ⟨record, distance⟩ } 0 n hn (by simp; omega)
        (by omega) (by omega)
      refine ⟨{ heap with nodes := l' }, ?_, ?_, rfl⟩
      · unfold heap_push
        rw [if_neg hlt, hr]
        simp only [Option.bind_eq_bind, Option.some_bind, hd, if_true, hw, max_heapify_down]
        have e5 : ((heap.size - 0).toNat + 1) = n + 1 := by omega
        rw [e5]
        exact e1
      · refine ⟨h0, h1, ?_⟩
        show ((l'.length : Nat) : Int) = heap.capacity
        rw [e2]; simpa using h2
    · refine ⟨heap, ?_, ⟨h0, h1, h2⟩, rfl⟩
      unfold heap_push
      rw [if_neg hlt, hr]
      simp [hd]

/-- The traversal of any tree returns a heap of the same capacity with
`0 ≤ size ≤ capacity`: no heap access leaves the block. -/
theorem knn_recursive_total (k K : Nat) (q : FaceRecord α) (t : KDNode α) :
    ∀ (depth : Nat) (heap : MaxHeap α), heap.well_formed → 1 ≤ heap.capacity →
    ∃ heap', _kdtree_knn_recursive k K t q depth heap = some heap' ∧ heap'.well_formed ∧
      heap'.capacity = heap.capacity := by
  induction t with
  | NULL => intro depth heap hwf _; exact ⟨heap, rfl, hwf, rfl⟩
  | node data left right ihl ihr =>
    intro depth heap hwf hcap
    obtain ⟨h1, e1, w1, c1⟩ := heap_push_total heap data (calculate_distance_sq K data q)
      hwf hcap
    simp only [_kdtree_knn_recursive, e1, Option.bind_eq_bind, Option.some_bind]
    by_cases hlt : q.embedding (depth % k) < data.embedding (depth % k)
    · simp only [hlt, if_true]
      obtain ⟨h2, e2, w2, c2⟩ := ihl (depth + 1) h1 w1 (by omega)
      rw [e2]
      simp only [Option.some_bind]
      rcases far_side_needed_spec h2
        ((q.embedding (depth % k) - data.embedding (depth % k))
          * (q.embedding (depth % k) - data.embedding (depth % k))) w2 (by omega)
        with ⟨_, hf⟩ | ⟨_, root, _, hf⟩
      · rw [hf]
        simp only [Option.some_bind, if_true]
        obtain ⟨h3, e3, w3, c3⟩ := ihr (depth + 1) h2 w2 (by omega)
        exact ⟨h3, e3, w3, by omega⟩
      · rw [hf]
        simp only [Option.some_bind]
        split
        · obtain ⟨h3, e3, w3, c3⟩ := ihr (depth + 1) h2 w2 (by omega)
          exact ⟨h3, e3, w3, by omega⟩
        · exact ⟨h2, rfl, w2, by omega⟩
    · simp only [hlt, if_false]
      obtain ⟨h2, e2, w2, c2⟩ := ihr (depth + 1) h1 w1 (by omega)
      rw [e2]
      simp only [Option.some_bind]
      rcases far_side_needed_spec h2
        ((q.embedding (depth % k) - data.embedding (depth % k))
          * (q.embedding (depth % k) - data.embedding (depth % k))) w2 (by omega)
        with ⟨_, hf⟩ | ⟨_, root, _, hf⟩
      · rw [hf]
        simp only [Option.some_bind, if_true]
        obtain ⟨h3, e3, w3, c3⟩ := ihl (depth + 1) h2 w2 (by omega)
        exact ⟨h3, e3, w3, by omega⟩
      · rw [hf]
        simp only [Option.some_bind]
        split
        · obtain ⟨h3, e3, w3, c3⟩ := ihl (depth + 1) h2 w2 (by omega)
          exact ⟨h3, e3, w3, by omega⟩
        · exact ⟨h2, rfl, w2, by omega⟩

/-- The search once its guards are passed and the heap is obtained: traversal,
copy loop, `qsort`. -/
theorem find_unfold (K : Nat) (sqrt : α → α) (punned_distance : (Nat → α) → List Char → α)
    (g : Globals α) (m : HeapAlloc α) (block : List (HeapNode α)) (query : FaceRecord α)
    (n_neighbors : Int) (found : List (FaceRecord α))
    (hinit : g.tree_initialized = true) (hroot : g.global_kd_tree.root.isNULL = false)
    (hn : 1 ≤ n_neighbors) (hheap : m.heap_ok = true) (hnodes : m.nodes_block = some block) :
    kdtree_find_n_nearest_global K sqrt punned_distance g m query n_neighbors found
      = (_kdtree_knn_recursive g.global_kd_tree.k K g.global_kd_tree.root query 0
          { nodes := block, size := 0, capacity := n_neighbors }).bind fun knn_heap =>
        (copy_neighbors K sqrt knn_heap knn_heap.size.toNat 0 found).bind fun filled =>
          some (knn_heap.size,
            qsort filled knn_heap.size.toNat
              (fun a b => compare_heap_nodes (a.as_heap_node punned_distance)
                (b.as_heap_node punned_distance))) := by
  unfold kdtree_find_n_nearest_global
  simp only [hinit, hroot, Bool.not_true, Bool.or_self, Bool.false_eq_true, if_false,
    not_le.mpr (by omega : (0 : Int) < n_neighbors), create_max_heap, hheap, hnodes,
    Option.bind_eq_bind, Option.pure_def]

/-- The search when one of its guards stops it or the heap is not obtained. -/
theorem find_guarded (K : Nat) (sqrt : α → α) (punned_distance : (Nat → α) → List Char → α)
    (g : Globals α) (m : HeapAlloc α) (query : FaceRecord α)
    (n_neighbors : Int) (found : List (FaceRecord α))
    (h : g.tree_initialized = false ∨ g.global_kd_tree.root.isNULL = true ∨ n_neighbors ≤ 0 ∨
      m.heap_ok = false ∨ m.nodes_block = none) :
    kdtree_find_n_nearest_global K sqrt punned_distance g m query n_neighbors found
      = some (0, found) := by
  unfold kdtree_find_n_nearest_global
  rcases h with h | h | h | h | h
  · simp [h]
  · simp [h]
  · simp [h]
  · simp [create_max_heap, h]
  · cases hok : m.heap_ok <;> simp [create_max_heap, h, hok]

theorem qsort_length {β : Type} (l : List β) (num : Nat) (compar : β → β → Int) :
    (qsort l num compar).length = l.length := by
  unfold qsort
  rw [List.length_append, List.length_insertionSort, List.length_take, List.length_drop]
  omega

theorem qsort_getElem?_ge {β : Type} (l : List β) (num : Nat) (compar : β → β → Int)
    (hnum : num ≤ l.length) (j : Nat) (hj : num ≤ j) : (qsort l num compar)[j]? = l[j]? := by
  unfold qsort
  have hlen : ((l.take num).insertionSort fun a b => compar a b ≤ 0).length = num := by
    rw [List.length_insertionSort, List.length_take]; omega
  rw [List.getElem?_append_right (by omega), hlen, List.getElem?_drop]
  congr 1
  omega

/-- The search on any index, with a heap block of `n_neighbors` slots when it is
obtained and an output array of at least `n_neighbors` records: the call returns
(no access leaves a block), the count is at most `n_neighbors`, and the output
array is untouched from index `count` on. -/
theorem find_total (K : Nat) (sqrt : α → α) (punned_distance : (Nat → α) → List Char → α)
    (g : Globals α) (m : HeapAlloc α) (query : FaceRecord α)
    (n_neighbors : Int) (found : List (FaceRecord α))
    (hblock : ∀ block, m.nodes_block = some block → (block.length : Int) = n_neighbors)
    (hbuf : n_neighbors ≤ found.length) :
    ∃ count out,
      kdtree_find_n_nearest_global K sqrt punned_distance g m query n_neighbors found
        = some (count, out) ∧
      0 ≤ count ∧ count ≤ max n_neighbors 0 ∧ out.length = found.length ∧
      ∀ j : Nat, count ≤ j → out[j]? = found[j]? := by
  by_cases hguard : g.tree_initialized = false ∨ g.global_kd_tree.root.isNULL = true ∨
      n_neighbors ≤ 0 ∨ m.heap_ok = false ∨ m.nodes_block = none
  · exact ⟨0, found, find_guarded K sqrt punned_distance g m query n_neighbors found hguard,
      le_refl _, le_max_right _ _, rfl, fun _ _ => rfl⟩
  · simp only [not_or, Bool.not_eq_false, Bool.not_eq_true, not_le] at hguard
    obtain ⟨hinit, hroot, hn, hheap, hnodes⟩ := hguard
    obtain ⟨block, hb⟩ : ∃ block, m.nodes_block = some block := by
      cases hm : m.nodes_block with
      | none => exact absurd hm hnodes
      | some block => exact ⟨block, rfl⟩
    have hbl := hblock block hb
    obtain ⟨heap, e, w, c⟩ := knn_recursive_total g.global_kd_tree.k K query
      g.global_kd_tree.root 0 { nodes := block, size := 0, capacity := n_neighbors }
      ⟨le_refl _, (by show (0 : Int) ≤ n_neighbors; omega), hbl⟩ (by show 1 ≤ n_neighbors; omega)
    have c' : heap.capacity = n_neighbors := c
    obtain ⟨w0, w1, w2⟩ := w
    obtain ⟨filled, ef, hlen, hsame, -⟩ := copy_neighbors_spec K sqrt heap heap.size.toNat 0
      found (by omega) (by omega)
    refine ⟨heap.size,
      qsort filled heap.size.toNat
        (fun a b => compare_heap_nodes (a.as_heap_node punned_distance)
          (b.as_heap_node punned_distance)), ?_, w0, ?_, ?_, ?_⟩
    · rw [find_unfold K sqrt punned_distance g m block query n_neighbors found hinit hroot
        (by omega) hheap hb, e]
      simp only [Option.some_bind, ef]
    · rw [← c']; exact le_trans w1 (le_max_left _ _)
    · rw [qsort_length, hlen]
    · intro j hj
      rw [qsort_getElem?_ge _ _ _ (by omega) j (by omega)]
      exact hsame j (Or.inr (by omega))

/-- C20. Heap index safety: on every heap with `capacity ≥ 1`,
`0 ≤ size ≤ capacity` and a block of `capacity` slots, `heap_push` returns a heap
with the same bounds, and `max_heapify_up` and `max_heapify_down` return on every
slot index in `[0, size)`: every access they make (the read of `nodes[0]` in the
full-heap branch included) is inside the block and both recursions end. Hence
`kdtree_find_n_nearest_global`, whose heap has `n_neighbors ≥ 1` slots whenever
it has one, returns on every index, with a count of at most `n_neighbors`, and
leaves `found_neighbors` untouched from index `count` on. -/
theorem C20_heap_index_safety (heap : MaxHeap α) (record : FaceRecord α) (distance : α)
    (hwf : heap.well_formed) (hcap : 1 ≤ heap.capacity)
    (K : Nat) (sqrt : α → α) (punned_distance : (Nat → α) → List Char → α)
    (g : Globals α) (m : HeapAlloc α) (query : FaceRecord α)
    (n_neighbors : Int) (found : List (FaceRecord α))
    (hblock : ∀ block, m.nodes_block = some block → (block.length : Int) = n_neighbors)
    (hbuf : n_neighbors ≤ found.length) :
    (∃ heap', heap_push heap record distance = some heap' ∧ heap'.well_formed ∧
      heap'.capacity = heap.capacity) ∧
    (∀ index : Int, 0 ≤ index → index < heap.size →
      (∃ heap', max_heapify_up heap index = some heap' ∧
        heap'.size = heap.size ∧ heap'.capacity = heap.capacity ∧
        heap'.nodes.length = heap.nodes.length) ∧
      (∃ heap', max_heapify_down heap index = some heap' ∧
        heap'.size = heap.size ∧ heap'.capacity = heap.capacity ∧
        heap'.nodes.length = heap.nodes.length)) ∧
    ∃ count out,
      kdtree_find_n_nearest_global K sqrt punned_distance g m query n_neighbors found
        = some (count, out) ∧
      0 ≤ count ∧ count ≤ max n_neighbors 0 ∧ out.length = found.length ∧
      ∀ j : Nat, count ≤ j → out[j]? = found[j]? := by
  refine ⟨heap_push_total heap record distance hwf hcap, ?_,
    find_total K sqrt punned_distance g m query n_neighbors found hblock hbuf⟩
  intro index h0 h1
  obtain ⟨w0, w1, w2⟩ := hwf
  obtain ⟨i, rfl⟩ : ∃ i : Nat, index = i := ⟨index.toNat, by omega⟩
  obtain ⟨n, hn⟩ : ∃ n : Nat, heap.size = n := ⟨heap.size.toNat, by omega⟩
  constructor
  · obtain ⟨l', e1, e2⟩ := sift_up_total (i + 1) heap i n hn (by omega) (by omega) (by omega)
    refine ⟨{ heap with nodes := l' }, ?_, rfl, rfl, e2⟩
    unfold max_heapify_up
    simpa using e1
  · obtain ⟨l', e1, e2⟩ := sift_down_total (n - i + 1) heap i n hn (by omega) (by omega)
      (by omega)
    refine ⟨{ heap with nodes := l' }, ?_, rfl, rfl, e2⟩
    unfold max_heapify_down
    have : (heap.size - (i : Int)).toNat + 1 = n - i + 1 := by omega
    rw [this]
    exact e1

theorem scenario_root :
    scenario_index.global_kd_tree.root
      = .node scenario_P0 .NULL (.node scenario_P1 .NULL (.node scenario_P2 .NULL .NULL)) := by
  simp [scenario_index, insert_all, kdtree_insert_global, kdtree_initialize_global,
    _kdtree_insert_recursive, scenario_P0, scenario_P1, scenario_P2, scenario_point]

theorem scenario_distances :
    calculate_distance_sq 3 scenario_P0 scenario_query = 3 / 100 ∧
    calculate_distance_sq 3 scenario_P1 scenario_query = 243 / 100 ∧
    calculate_distance_sq 3 scenario_P2 scenario_query = 1083 / 100 := by
  refine ⟨?_, ?_, ?_⟩ <;>
    norm_num [calculate_distance_sq, List.range_succ, scenario_P0, scenario_P1, scenario_P2,
      scenario_query, scenario_point]

theorem scenario_push_P0 :
    heap_push
        { nodes := [{ record := scenario_point 0 [], distance := 0 },
            { record := scenario_point 0 [], distance := 0 }], size := 0, capacity := 2 }
        scenario_P0 (3 / 100)
      = some
        { nodes := [{ record := scenario_P0, distance := 3 / 100 },
            { record := scenario_point 0 [], distance := 0 }]
          size := 1
          capacity := 2 } := by
  simp [heap_push, MaxHeap.write, max_heapify_up, max_heapify_up_fuel]

theorem scenario_push_P1 :
    heap_push
        { nodes := [{ record := scenario_P0, distance := 3 / 100 },
            { record := scenario_point 0 [], distance := 0 }], size := 1, capacity := 2 }
        scenario_P1 (243 / 100)
      = some
        { nodes := [{ record := scenario_P1, distance := 243 / 100 },
            { record := scenario_P0, distance := 3 / 100 }]
          size := 2
          capacity := 2 } := by
  have h : ((3 : ℚ) / 100 < 243 / 100) := by norm_num
  simp [heap_push, MaxHeap.write, MaxHeap.read, max_heapify_up, max_heapify_up_fuel,
    swap_heap_nodes, Int.tdiv, h]

theorem scenario_push_P2 :
    heap_push
        { nodes := [{ record := scenario_P1, distance := 243 / 100 },
            { record := scenario_P0, distance := 3 / 100 }], size := 2, capacity := 2 }
        scenario_P2 (1083 / 100)
      = some
        { nodes := [{ record := scenario_P1, distance := 243 / 100 },
            { record := scenario_P0, distance := 3 / 100 }]
          size := 2
          capacity := 2 } := by
  have h : ¬ ((1083 : ℚ) / 100 < 243 / 100) := by norm_num
  simp [heap_push, MaxHeap.read, h]

theorem scenario_heap :
    _kdtree_knn_recursive 3 3 scenario_index.global_kd_tree.root scenario_query 0
        { nodes := [{ record := scenario_point 0 [], distance := 0 },
            { record := scenario_point 0 [], distance := 0 }], size := 0, capacity := 2 }
      = some
        { nodes := [{ record := scenario_P1, distance := 243 / 100 },
            { record := scenario_P0, distance := 3 / 100 }]
          size := 2
          capacity := 2 } := by
  rw [scenario_root]
  simp only [_kdtree_knn_recursive, scenario_distances.1, scenario_distances.2.1,
    scenario_distances.2.2, scenario_push_P0, scenario_push_P1, scenario_push_P2,
    Option.bind_eq_bind, Option.some_bind]
  norm_num [far_side_needed, MaxHeap.read, scenario_P0, scenario_P1, scenario_P2,
    scenario_query, scenario_point]
/-- C15 fails on the code for the order. Three axes; `P0`, `P1`, `P2` are inserted
in that order with the identifiers `BBBB`, `AAAA`, `CCCC`; the query is
`(0.1, 0.1, 0.1)` and `k = 2`. The call returns 2 and the two records are `P1`
and `P0` with squared distances 2.43 and 0.03 (`P2` is left out), but whenever the
bytes that the comparator reads in the copy of `P1` compare below those it reads
in the copy of `P0`, `qsort` puts `P1` first: the order is `[P1, P0]`. -/
theorem C15_scenario_order_follows_bytes (sqrt : ℚ → ℚ)
    (punned_distance : (Nat → ℚ) → List Char → ℚ)
    (hpun : ∀ e₁ e₀ : Nat → ℚ, (∀ j, j < 3 → e₁ j = 1) → (∀ j, j < 3 → e₀ j = 0) →
      punned_distance e₁ scenario_P1.person_id < punned_distance e₀ scenario_P0.person_id) :
    ∃ out, kdtree_find_n_nearest_global 3 sqrt punned_distance scenario_index scenario_alloc
        scenario_query 2 [scenario_point 0 [], scenario_point 0 []] = some (2, out) ∧
      out.map (fun r => (r.person_id, r.distance_to_query))
        = [(scenario_P1.person_id, sqrt (243 / 100)),
            (scenario_P0.person_id, sqrt (3 / 100))] := by
  have hroot : scenario_index.global_kd_tree.root.isNULL = false := by
    rw [scenario_root]; rfl
  have hlt := hpun
    (fun j => if j < 3 then scenario_P1.embedding j else (scenario_point 0 []).embedding j)
    (fun j => if j < 3 then scenario_P0.embedding j else (scenario_point 0 []).embedding j)
    (fun j hj => by simp [hj, scenario_P1, scenario_point])
    (fun j hj => by simp [hj, scenario_P0, scenario_point])
  have hfind : kdtree_find_n_nearest_global 3 sqrt punned_distance scenario_index
      scenario_alloc scenario_query 2 [scenario_point 0 [], scenario_point 0 []]
      = some (2,
        [{ embedding := fun j =>
              if j < 3 then scenario_P1.embedding j else (scenario_point 0 []).embedding j
           person_id := scenario_P1.person_id
           distance_to_query := sqrt (243 / 100) },
         { embedding := fun j =>
              if j < 3 then scenario_P0.embedding j else (scenario_point 0 []).embedding j
           person_id := scenario_P0.person_id
           distance_to_query := sqrt (3 / 100) }]) := by
    rw [find_unfold 3 sqrt punned_distance scenario_index scenario_alloc _ scenario_query 2 _
      rfl hroot (by decide) rfl rfl]
    have hk : scenario_index.global_kd_tree.k = 3 := rfl
    rw [hk, scenario_heap]
    have hp1 : scenario_P1.person_id.take (MAX_ID_LENGTH - 1) = scenario_P1.person_id := rfl
    have hp0 : scenario_P0.person_id.take (MAX_ID_LENGTH - 1) = scenario_P0.person_id := rfl
    simp only [Option.some_bind, copy_neighbors, MaxHeap.read, qsort, compare_heap_nodes,
      FaceRecord.as_heap_node]
    simp [hp1, hp0, hlt, List.insertionSort, List.orderedInsert]
  exact ⟨_, hfind, rfl⟩

/-- Witness of C12: a failed insertion into a fresh index with three axes. -/
theorem C12_failed_insertion_keeps_tree_witness :
    kdtree_insert_global (fresh_index 3) false (some (uniform_point 1)) = fresh_index 3 :=
  C12_failed_insertion_keeps_tree (fresh_index 3) (uniform_point 1) rfl

/-- Witness of C13: an insertion before any initialisation. -/
theorem C13_rejected_insertion_noop_witness :
    kdtree_insert_global (initial_globals : Globals Int) true (some (uniform_point 1))
      = initial_globals :=
  C13_rejected_insertion_noop initial_globals true (some (uniform_point 1)) (Or.inl rfl)

/-- Witness of the evaluation for C15: the square root stood in for by the
identity, the bytes read by the comparator by the opposite of the third
coordinate. -/
theorem C15_scenario_order_follows_bytes_witness :
    ∃ out, kdtree_find_n_nearest_global 3 (fun x : ℚ => x) (fun e _ => - e 2) scenario_index
        scenario_alloc scenario_query 2 [scenario_point 0 [], scenario_point 0 []]
        = some (2, out) ∧
      out.map (fun r => (r.person_id, r.distance_to_query))
        = [(scenario_P1.person_id, (fun x : ℚ => x) (243 / 100)),
            (scenario_P0.person_id, (fun x : ℚ => x) (3 / 100))] :=
  C15_scenario_order_follows_bytes (fun x : ℚ => x) (fun e _ => - e 2)
    (fun e₁ e₀ h1 h0 => by
      show - e₁ 2 < - e₀ 2
      rw [h1 2 (by decide), h0 2 (by decide)]; norm_num)

/-- Witness of C20: the full one-slot heap, and a search with `k = 1` on the index
holding `(1, 1, ...)` and `(2, 2, ...)`. -/
theorem C20_heap_index_safety_witness :
    (∃ heap', heap_push one_slot_heap (uniform_point 3) 3 = some heap' ∧ heap'.well_formed ∧
      heap'.capacity = one_slot_heap.capacity) ∧
    (∀ index : Int, 0 ≤ index → index < one_slot_heap.size →
      (∃ heap', max_heapify_up one_slot_heap index = some heap' ∧
        heap'.size = one_slot_heap.size ∧ heap'.capacity = one_slot_heap.capacity ∧
        heap'.nodes.length = one_slot_heap.nodes.length) ∧
      (∃ heap', max_heapify_down one_slot_heap index = some heap' ∧
        heap'.size = one_slot_heap.size ∧ heap'.capacity = one_slot_heap.capacity ∧
        heap'.nodes.length = one_slot_heap.nodes.length)) ∧
    ∃ count out,
      kdtree_find_n_nearest_global 128 (fun x : Int => x) (fun e _ => e 0) two_point_index
          one_slot_alloc (uniform_point 2) 1 [uniform_point 7]
        = some (count, out) ∧
      0 ≤ count ∧ count ≤ max 1 0 ∧ out.length = [uniform_point 7].length ∧
      ∀ j : Nat, count ≤ j → out[j]? = [uniform_point 7][j]? :=
  C20_heap_index_safety one_slot_heap (uniform_point 3) 3 one_slot_heap_well_formed
    (by decide) 128 (fun x : Int => x) (fun e _ => e 0) two_point_index one_slot_alloc
    (uniform_point 2) 1 [uniform_point 7] (fun block h => by cases h; rfl) (by decide)

end TreeProperties

end KDTreeKNN
